import Mathlib

/-!
Verification development for the sSWBAM record-partitioning, sorting and
duplicate-marking core.

The definitions below are shallow embeddings of the C/C++ sources:

* `src/slave/slave.c` — SAM line sorting (`parse_rname_pos`, `cmp_rname`,
  `cmp_line`, `quicksort_lineinfo`) and duplicate marking (`calc_score`,
  `parse_sam_line_markdup`, `get_ref_id`, `compare_records`,
  `mark_duplicates_sorted`, `write_sam_record`, `markdup_core`).
* `src/pre-tools/auto_region.cpp` — chromosome whitelist
  (`is_wanted_chr_name`) and region partitioning (`build_regions_for_chr`).
* `src/src/main.c` — batch write-back validation (`process_batch`).

Buffers are byte lists (`List Nat`, each entry `< 256` in practice); machine
integers are `Int`/`Nat` with explicit wrap-around where overflow matters.
-/

/-! ## Basic byte/number helpers shared by several components -/

/-- Contiguous byte range `[a, b)` of a buffer. -/
def byteSlice (buf : List Nat) (a b : Nat) : List Nat :=
  (buf.drop a).take (b - a)

/-- Decimal digits (ASCII bytes) of a natural number, with explicit fuel
(structural recursion; the fuel never runs out for the seed used below). -/
def decimalBytesF : Nat → Nat → List Nat
  | 0, n => [48 + n % 10]
  | fuel + 1, n =>
    if n < 10 then [48 + n]
    else decimalBytesF fuel (n / 10) ++ [48 + n % 10]

/-- Decimal digits (ASCII bytes) of a natural number, as produced by
`snprintf(.., "%d", n)` for non-negative `n`. -/
def decimalBytes (n : Nat) : List Nat := decimalBytesF n n

/-- C `atoi`: skip leading whitespace bytes. -/
def atoiSkipWs : List Nat → List Nat
  | [] => []
  | c :: cs => if c = 32 ∨ (9 ≤ c ∧ c ≤ 13) then atoiSkipWs cs else c :: cs

/-- C `atoi`: accumulate decimal digits until the first non-digit. -/
def atoiDigits : List Nat → Nat → Nat
  | [], acc => acc
  | c :: cs, acc => if 48 ≤ c ∧ c ≤ 57 then atoiDigits cs (acc * 10 + (c - 48)) else acc

/-- C `atoi` on a byte sequence (exact integer value, no overflow wrap:
the callers apply their own integer casts). -/
def atoiBytes (l : List Nat) : Int :=
  match atoiSkipWs l with
  | 45 :: cs => -(atoiDigits cs 0 : Int)
  | 43 :: cs => (atoiDigits cs 0 : Int)
  | cs => (atoiDigits cs 0 : Int)

/-- Conversion to C `uint16_t` (value modulo 2^16). -/
def toUInt16 (i : Int) : Nat := (i % 65536).toNat

/-- Conversion to C `int32_t` (two's-complement wrap-around). -/
def toInt32 (i : Int) : Int := (i + 2147483648) % 4294967296 - 2147483648

/-! ## Duplicate-marking data model (`src/slave/slave.c`)

`sam_record_t`: compact record for duplicate detection.  `line_offset`,
`line_len`, `flag_offset`, `flag_len` are kept as `Nat` (the C code stores
them in `uint32_t`/`uint16_t`; lines and buffers in this pipeline are far
below those limits). -/

structure SamRecM where
  lineOffset : Nat
  flagOffset : Nat
  pos : Int
  matePos : Int
  lineLen : Nat
  flagLen : Nat
  tid : Int
  mateTid : Int
  flag : Nat
  score : Nat
  orientation : Nat
  isDuplicate : Bool
deriving DecidableEq, Repr

instance : Inhabited SamRecM :=
  ⟨⟨0, 0, 0, 0, 0, 0, 0, 0, 0, 0, 0, false⟩⟩

/-- The 5-tuple duplicate key `(tid, pos, mate_tid, mate_pos, orientation)`. -/
def keyOf (r : SamRecM) : Int × Int × Int × Int × Nat :=
  (r.tid, r.pos, r.mateTid, r.matePos, r.orientation)

/-- `compare_records`: sort by tid, pos, mate_tid, mate_pos, orientation
(sign of the returned C `int`). -/
def compareRecords (a b : SamRecM) : Int :=
  if a.tid ≠ b.tid then a.tid - b.tid
  else if a.pos ≠ b.pos then (if a.pos < b.pos then -1 else 1)
  else if a.mateTid ≠ b.mateTid then a.mateTid - b.mateTid
  else if a.matePos ≠ b.matePos then (if a.matePos < b.matePos then -1 else 1)
  else if a.orientation ≠ b.orientation then (a.orientation : Int) - (b.orientation : Int)
  else 0

/-- Flag test from `mark_duplicates_sorted`:
`flag & (BAM_FUNMAP | BAM_FSECONDARY | BAM_FSUPPLEMENTARY)`. -/
def ineligibleFlag (r : SamRecM) : Bool :=
  r.flag &&& (4 ||| 256 ||| 2048) != 0

/-- Set the duplicate mark (`is_duplicate = 1`). -/
def markDup (r : SamRecM) : SamRecM := { r with isDuplicate := true }

/-- Inner loop of the `mark_duplicates_sorted` scan: starting from run head
`h` with current best `best`, already-processed run members `pre` (before the
best, all marked) and `post` (after the best, all marked), consume records
while they compare equal to `h`; returns the processed run (in array order)
and the remaining records. -/
def scanRun (h : SamRecM) (pre : List SamRecM) (best : SamRecM)
    (post : List SamRecM) : List SamRecM → List SamRecM × List SamRecM
  | [] => (pre ++ best :: post, [])
  | r :: rest =>
    if compareRecords h r = 0 then
      if best.score < r.score then
        scanRun h (pre ++ markDup best :: post) r [] rest
      else
        scanRun h pre best (post ++ [markDup r]) rest
    else (pre ++ best :: post, r :: rest)

theorem scanRun_rem_length (h : SamRecM) :
    ∀ (l : List SamRecM) (pre best post),
      (scanRun h pre best post l).2.length ≤ l.length := by
  intro l
  induction l with
  | nil => intro pre best post; simp [scanRun]
  | cons r rest ih =>
    intro pre best post
    by_cases hc : compareRecords h r = 0
    · by_cases hs : best.score < r.score
      · simpa [scanRun, hc, hs] using
          Nat.le_succ_of_le (ih (pre ++ markDup best :: post) r [])
      · simpa [scanRun, hc, hs] using
          Nat.le_succ_of_le (ih pre best (post ++ [markDup r]))
    · simp [scanRun, hc]

/-- Outer loop of the `mark_duplicates_sorted` scan over the (sorted) record
array: skip ineligible records at a run head, otherwise process the maximal
run of records comparing equal to the head. -/
def markScan : List SamRecM → List SamRecM
  | [] => []
  | r :: rest =>
    if ineligibleFlag r then r :: markScan rest
    else (scanRun r [] r [] rest).1 ++ markScan (scanRun r [] r [] rest).2
termination_by l => l.length
decreasing_by
  · simp [Nat.lt_succ_iff]
  · exact Nat.lt_succ_of_le (scanRun_rem_length r rest [] r [])

/-! ### Comparator lemmas for `compare_records` -/

@[simp] theorem markDup_score (r : SamRecM) : (markDup r).score = r.score := rfl

@[simp] theorem markDup_isDuplicate (r : SamRecM) : (markDup r).isDuplicate = true := rfl

@[simp] theorem markDup_key (r : SamRecM) : keyOf (markDup r) = keyOf r := rfl

theorem compareRecords_eq_zero_iff (a b : SamRecM) :
    compareRecords a b = 0 ↔ keyOf a = keyOf b := by
  unfold compareRecords keyOf
  split_ifs <;> simp_all [Prod.ext_iff] <;> omega

theorem compareRecords_neg (a b : SamRecM) :
    compareRecords b a = -compareRecords a b := by
  unfold compareRecords
  split_ifs <;> omega

theorem compareRecords_key_left {a a' : SamRecM} (b : SamRecM)
    (h : keyOf a = keyOf a') : compareRecords a b = compareRecords a' b := by
  have h1 : a.tid = a'.tid := congrArg (fun k => k.1) h
  have h2 : a.pos = a'.pos := congrArg (fun k => k.2.1) h
  have h3 : a.mateTid = a'.mateTid := congrArg (fun k => k.2.2.1) h
  have h4 : a.matePos = a'.matePos := congrArg (fun k => k.2.2.2.1) h
  have h5 : a.orientation = a'.orientation := congrArg (fun k => k.2.2.2.2) h
  simp only [compareRecords, h1, h2, h3, h4, h5]

theorem compareRecords_key_right {b b' : SamRecM} (a : SamRecM)
    (h : keyOf b = keyOf b') : compareRecords a b = compareRecords a b' := by
  rw [compareRecords_neg, compareRecords_key_left a h, ← compareRecords_neg]

/-- Explicit lexicographic order on duplicate keys, used to reason about the
sign of `compare_records`. -/
def keyLe (x y : Int × Int × Int × Int × Nat) : Prop :=
  x.1 < y.1 ∨ (x.1 = y.1 ∧ (x.2.1 < y.2.1 ∨ (x.2.1 = y.2.1 ∧
    (x.2.2.1 < y.2.2.1 ∨ (x.2.2.1 = y.2.2.1 ∧
      (x.2.2.2.1 < y.2.2.2.1 ∨ (x.2.2.2.1 = y.2.2.2.1 ∧
        x.2.2.2.2 ≤ y.2.2.2.2)))))))

theorem compareRecords_le_iff (a b : SamRecM) :
    compareRecords a b ≤ 0 ↔ keyLe (keyOf a) (keyOf b) := by
  simp only [compareRecords, keyOf, keyLe]
  split_ifs <;> omega

theorem compareRecords_trans_le {a b c : SamRecM}
    (h1 : compareRecords a b ≤ 0) (h2 : compareRecords b c ≤ 0) :
    compareRecords a c ≤ 0 := by
  rw [compareRecords_le_iff] at h1 h2 ⊢
  simp only [keyLe, keyOf] at h1 h2 ⊢
  omega

/-! ### Structure of the duplicate-marking scan -/

theorem scanRun_shape (h : SamRecM) :
    ∀ (l pre post : List SamRecM) (best : SamRecM),
      keyOf best = keyOf h →
      (∀ x ∈ pre, keyOf x = keyOf h ∧ x.isDuplicate = true ∧ x.score < best.score) →
      (∀ x ∈ post, keyOf x = keyOf h ∧ x.isDuplicate = true ∧ x.score ≤ best.score) →
      ∃ pre' best' post',
        (scanRun h pre best post l).1 = pre' ++ best' :: post' ∧
        keyOf best' = keyOf h ∧
        (∀ x ∈ pre', keyOf x = keyOf h ∧ x.isDuplicate = true ∧ x.score < best'.score) ∧
        (∀ x ∈ post', keyOf x = keyOf h ∧ x.isDuplicate = true ∧ x.score ≤ best'.score) := by
  intro l
  induction l with
  | nil =>
    intro pre post best hkb hpre hpost
    exact ⟨pre, best, post, by simp [scanRun], hkb, hpre, hpost⟩
  | cons r rest ih =>
    intro pre post best hkb hpre hpost
    by_cases hc : compareRecords h r = 0
    · have hkr : keyOf r = keyOf h := ((compareRecords_eq_zero_iff h r).1 hc).symm
      by_cases hs : best.score < r.score
      · have hpre' : ∀ x ∈ pre ++ markDup best :: post,
            keyOf x = keyOf h ∧ x.isDuplicate = true ∧ x.score < r.score := by
          intro x hx
          rcases List.mem_append.1 hx with hx | hx
          · obtain ⟨h1, h2, h3⟩ := hpre x hx
            exact ⟨h1, h2, lt_trans h3 hs⟩
          · rcases List.mem_cons.1 hx with rfl | hx
            · exact ⟨by simpa using hkb, by simp, by simpa using hs⟩
            · obtain ⟨h1, h2, h3⟩ := hpost x hx
              exact ⟨h1, h2, lt_of_le_of_lt h3 hs⟩
        have hres := ih (pre ++ markDup best :: post) [] r hkr hpre' (by simp)
        simpa [scanRun, hc, hs] using hres
      · have hpost' : ∀ x ∈ post ++ [markDup r],
            keyOf x = keyOf h ∧ x.isDuplicate = true ∧ x.score ≤ best.score := by
          intro x hx
          rcases List.mem_append.1 hx with hx | hx
          · exact hpost x hx
          · have hx' : x = markDup r := by simpa using hx
            subst hx'
            exact ⟨by simpa using hkr, by simp, by simpa using Nat.not_lt.1 hs⟩
        have hres := ih pre (post ++ [markDup r]) best hkb hpre hpost'
        simpa [scanRun, hc, hs] using hres
    · exact ⟨pre, best, post, by simp [scanRun, hc], hkb, hpre, hpost⟩

theorem scanRun_rem (h : SamRecM) :
    ∀ (l pre post : List SamRecM) (best : SamRecM),
      (scanRun h pre best post l).2
        = l.dropWhile (fun r => decide (compareRecords h r = 0)) := by
  intro l
  induction l with
  | nil => intro pre post best; simp [scanRun]
  | cons r rest ih =>
    intro pre post best
    by_cases hc : compareRecords h r = 0
    · by_cases hs : best.score < r.score
      · simp [scanRun, hc, hs, List.dropWhile_cons, ih]
      · simp [scanRun, hc, hs, List.dropWhile_cons, ih]
    · simp [scanRun, hc, List.dropWhile_cons]

theorem scanRun_mem (h : SamRecM) :
    ∀ (l pre post : List SamRecM) (best : SamRecM) (x : SamRecM),
      x ∈ (scanRun h pre best post l).1 →
      (∃ y ∈ pre ++ best :: post, keyOf x = keyOf y) ∨ (∃ y ∈ l, keyOf x = keyOf y) := by
  intro l
  induction l with
  | nil =>
    intro pre post best x hx
    rw [scanRun] at hx
    exact Or.inl ⟨x, hx, rfl⟩
  | cons r rest ih =>
    intro pre post best x hx
    by_cases hc : compareRecords h r = 0
    · by_cases hs : best.score < r.score
      · rw [scanRun, if_pos hc, if_pos hs] at hx
        rcases ih (pre ++ markDup best :: post) [] r x hx with ⟨y, hy, hk⟩ | ⟨y, hy, hk⟩
        · simp at hy
          rcases hy with hy | rfl | hy | rfl
          · exact Or.inl ⟨y, by simp [hy], hk⟩
          · exact Or.inl ⟨best, by simp, by simpa using hk⟩
          · exact Or.inl ⟨y, by simp [hy], hk⟩
          · exact Or.inr ⟨y, by simp, hk⟩
        · exact Or.inr ⟨y, by simp [hy], hk⟩
      · rw [scanRun, if_pos hc, if_neg hs] at hx
        rcases ih pre (post ++ [markDup r]) best x hx with ⟨y, hy, hk⟩ | ⟨y, hy, hk⟩
        · simp at hy
          rcases hy with hy | rfl | hy | rfl
          · exact Or.inl ⟨y, by simp [hy], hk⟩
          · exact Or.inl ⟨y, by simp, hk⟩
          · exact Or.inl ⟨y, by simp [hy], hk⟩
          · exact Or.inr ⟨r, by simp, by simpa using hk⟩
        · exact Or.inr ⟨y, by simp [hy], hk⟩
    · rw [scanRun, if_neg hc] at hx
      exact Or.inl ⟨x, hx, rfl⟩

theorem markScan_mem_key :
    ∀ (l : List SamRecM), ∀ x ∈ markScan l, ∃ y ∈ l, keyOf x = keyOf y := by
  intro l
  induction l using markScan.induct with
  | case1 => simp [markScan]
  | case2 r rest hin ih =>
    intro x hx
    rw [markScan, if_pos hin] at hx
    rcases List.mem_cons.1 hx with rfl | hx
    · exact ⟨x, by simp, rfl⟩
    · obtain ⟨y, hy, hk⟩ := ih x hx
      exact ⟨y, by simp [hy], hk⟩
  | case3 r rest hin ih =>
    intro x hx
    rw [markScan, if_neg hin] at hx
    rcases List.mem_append.1 hx with hx | hx
    · rcases scanRun_mem r rest [] [] r x hx with ⟨y, hy, hk⟩ | ⟨y, hy, hk⟩
      · have hy' : y = r := by simpa using hy
        exact ⟨r, by simp, by simpa [hy'] using hk⟩
      · exact ⟨y, by simp [hy], hk⟩
    · obtain ⟨y, hy, hk⟩ := ih x hx
      have hy' : y ∈ rest := (List.dropWhile_sublist _).mem (by
        simpa [scanRun_rem] using hy)
      exact ⟨y, by simp [hy'], hk⟩

theorem dropWhile_first_false {α : Type} (p : α → Bool) :
    ∀ (l : List α) (y : α) (ys : List α), l.dropWhile p = y :: ys → p y = false := by
  intro l
  induction l with
  | nil => intro y ys h; simp at h
  | cons a t ih =>
    intro y ys h
    by_cases hpa : p a = true
    · rw [List.dropWhile_cons_of_pos hpa] at h; exact ih y ys h
    · rw [List.dropWhile_cons_of_neg hpa] at h
      cases h
      simpa using hpa

/-- In a sorted record list with head `r`, everything after the maximal run of
records comparing equal to `r` has a key different from `r`. -/
theorem sorted_run_no_key {r : SamRecM} {rest : List SamRecM}
    (hsort : (r :: rest).Pairwise (fun a b => compareRecords a b ≤ 0)) :
    ∀ x ∈ rest.dropWhile (fun t => decide (compareRecords r t = 0)),
      keyOf x ≠ keyOf r := by
  intro x hx hkey
  cases hd : rest.dropWhile (fun t => decide (compareRecords r t = 0)) with
  | nil => rw [hd] at hx; simp at hx
  | cons y ys =>
    rw [hd] at hx
    have hyne : ¬ compareRecords r y = 0 := by
      simpa using dropWhile_first_false _ rest y ys hd
    have hsub : (y :: ys).Sublist rest := hd ▸ List.dropWhile_sublist _
    have hrle : ∀ b ∈ rest, compareRecords r b ≤ 0 := (List.pairwise_cons.1 hsort).1
    have hry : compareRecords r y < 0 :=
      lt_of_le_of_ne (hrle y (hsub.mem (by simp))) hyne
    rcases List.mem_cons.1 hx with rfl | hx2
    · exact hyne ((compareRecords_eq_zero_iff r x).2 hkey.symm)
    · have hpair : (y :: ys).Pairwise (fun a b => compareRecords a b ≤ 0) :=
        List.Pairwise.sublist hsub (List.pairwise_cons.1 hsort).2
      have hyx : compareRecords y x ≤ 0 := (List.pairwise_cons.1 hpair).1 x hx2
      rw [compareRecords_key_right y hkey, compareRecords_neg] at hyx
      omega

/-- A list with a single unmarked element decomposes uniquely around it. -/
theorem unmarked_decomp :
    ∀ (p : List SamRecM) (b : SamRecM) (q g1 : List SamRecM) (u : SamRecM)
      (g2 : List SamRecM),
      p ++ b :: q = g1 ++ u :: g2 → u.isDuplicate = false →
      (∀ x ∈ p, x.isDuplicate = true) → (∀ x ∈ q, x.isDuplicate = true) →
      p = g1 ∧ b = u ∧ q = g2 := by
  intro p
  induction p with
  | nil =>
    intro b q g1 u g2 he hu hp hq
    cases g1 with
    | nil =>
      simp only [List.nil_append] at he
      cases he
      exact ⟨rfl, rfl, rfl⟩
    | cons y g1' =>
      simp only [List.nil_append, List.cons_append] at he
      injection he with h1 h2
      exfalso
      have hmem : u ∈ q := by rw [h2]; simp
      exact absurd (hq u hmem) (by simp [hu])
  | cons x p' ih =>
    intro b q g1 u g2 he hu hp hq
    cases g1 with
    | nil =>
      simp only [List.cons_append, List.nil_append] at he
      injection he with h1 h2
      exfalso
      have hx : x.isDuplicate = true := hp x (by simp)
      rw [h1] at hx
      exact absurd hx (by simp [hu])
    | cons y g1' =>
      simp only [List.cons_append] at he
      injection he with h1 h2
      obtain ⟨e1, e2, e3⟩ := ih b q g1' u g2 h2 hu (fun z hz => hp z (by simp [hz])) hq
      exact ⟨by rw [h1, e1], e2, e3⟩

/-- Key-`k` group of a record list: the records whose duplicate key is `k`,
in list order. -/
def keyGroup (k : Int × Int × Int × Int × Nat) (l : List SamRecM) : List SamRecM :=
  l.filter (fun x => decide (keyOf x = k))

theorem keyGroup_nil (k : Int × Int × Int × Int × Nat) : keyGroup k [] = [] := rfl

/-- C1.  For a record list sorted by `compare_records` whose first member with
key `k` (if any) is eligible (mapped, non-secondary, non-supplementary), the
scan of `mark_duplicates_sorted` leaves at most one member of the key-`k`
group unmarked, and any unmarked member has the maximum score of the group,
with ties resolved to the earliest member in sort order. -/
theorem markdup_group_best_survivor (l : List SamRecM)
    (k : Int × Int × Int × Int × Nat)
    (hsort : l.Pairwise (fun a b => compareRecords a b ≤ 0))
    (helig : ((keyGroup k l).head?.all (fun h0 => ! ineligibleFlag h0)) = true) :
    ((keyGroup k (markScan l)).filter (fun x => ! x.isDuplicate)).length ≤ 1 ∧
    (∀ g1 u g2, keyGroup k (markScan l) = g1 ++ u :: g2 →
      u.isDuplicate = false →
      (∀ x ∈ g1, x.score < u.score) ∧ (∀ x ∈ g2, x.score ≤ u.score)) := by
  revert hsort helig
  unfold keyGroup
  induction l using markScan.induct with
  | case1 =>
    intro _ _
    constructor
    · simp [markScan]
    · intro g1 u g2 hg
      rw [markScan] at hg
      simp at hg
  | case2 r rest hin ih =>
    intro hsort helig
    have hsort' : rest.Pairwise (fun a b => compareRecords a b ≤ 0) :=
      (List.pairwise_cons.1 hsort).2
    by_cases hk : keyOf r = k
    · exfalso
      simp [List.filter_cons, hk, hin] at helig
    · have hgeq : (markScan (r :: rest)).filter (fun x => decide (keyOf x = k))
          = (markScan rest).filter (fun x => decide (keyOf x = k)) := by
        rw [markScan, if_pos hin]
        simp [List.filter_cons, hk]
      have hfeq : ((r :: rest).filter (fun x => decide (keyOf x = k)))
          = rest.filter (fun x => decide (keyOf x = k)) := by
        simp [List.filter_cons, hk]
      rw [hgeq]
      exact ih hsort' (by rwa [hfeq] at helig)
  | case3 r rest hin ih =>
    intro hsort helig
    have hsort' : rest.Pairwise (fun a b => compareRecords a b ≤ 0) :=
      (List.pairwise_cons.1 hsort).2
    obtain ⟨pre', best', post', hout, hkb, hpre, hpost⟩ :=
      scanRun_shape r rest [] [] r rfl (by simp) (by simp)
    have hall : ∀ x ∈ (scanRun r [] r [] rest).1, keyOf x = keyOf r := by
      rw [hout]
      intro x hx
      rcases List.mem_append.1 hx with hx | hx
      · exact (hpre x hx).1
      · rcases List.mem_cons.1 hx with rfl | hx
        · exact hkb
        · exact (hpost x hx).1
    have hrem_no : ∀ x ∈ (scanRun r [] r [] rest).2, keyOf x ≠ keyOf r := by
      rw [scanRun_rem]
      exact sorted_run_no_key hsort
    have hms_no : ∀ x ∈ markScan (scanRun r [] r [] rest).2, keyOf x ≠ keyOf r := by
      intro x hx
      obtain ⟨y, hy, hxy⟩ := markScan_mem_key _ x hx
      rw [hxy]
      exact hrem_no y hy
    by_cases hk : keyOf r = k
    · subst hk
      have hg : (markScan (r :: rest)).filter (fun x => decide (keyOf x = keyOf r))
          = pre' ++ best' :: post' := by
        rw [markScan, if_neg hin, List.filter_append]
        rw [List.filter_eq_self.2 (fun a ha => by simp [hall a ha]),
          List.filter_eq_nil_iff.2 (fun a ha => by simp [hms_no a ha]),
          List.append_nil, hout]
      rw [hg]
      constructor
      · have h1 : pre'.filter (fun x => ! x.isDuplicate) = [] :=
          List.filter_eq_nil_iff.2 (fun a ha => by simp [(hpre a ha).2.1])
        have h2 : post'.filter (fun x => ! x.isDuplicate) = [] :=
          List.filter_eq_nil_iff.2 (fun a ha => by simp [(hpost a ha).2.1])
        rw [List.filter_append, List.filter_cons, h1, h2]
        by_cases hb : best'.isDuplicate <;> simp [hb]
      · intro g1 u g2 hgu hu
        obtain ⟨e1, e2, e3⟩ :=
          unmarked_decomp pre' best' post' g1 u g2 hgu hu
            (fun x hx => (hpre x hx).2.1) (fun x hx => (hpost x hx).2.1)
        subst e1; subst e3
        constructor
        · intro x hx
          rw [← e2]
          exact (hpre x hx).2.2
        · intro x hx
          rw [← e2]
          exact (hpost x hx).2.2
    · have hg : (markScan (r :: rest)).filter (fun x => decide (keyOf x = k))
          = (markScan (scanRun r [] r [] rest).2).filter
              (fun x => decide (keyOf x = k)) := by
        rw [markScan, if_neg hin, List.filter_append,
          List.filter_eq_nil_iff.2 (fun a ha => by simp [hall a ha, hk]),
          List.nil_append]
      have hfeq : ((r :: rest).filter (fun x => decide (keyOf x = k)))
          = ((scanRun r [] r [] rest).2).filter (fun x => decide (keyOf x = k)) := by
        rw [List.filter_cons, scanRun_rem]
        have hrw : rest = rest.takeWhile (fun t => decide (compareRecords r t = 0))
            ++ rest.dropWhile (fun t => decide (compareRecords r t = 0)) :=
          (List.takeWhile_append_dropWhile _ _).symm
        rw [if_neg (by simp [hk])]
        conv_lhs => rw [hrw]
        rw [List.filter_append,
          List.filter_eq_nil_iff.2 (fun a ha => by
            have := List.mem_takeWhile_imp ha
            simp only [decide_eq_true_eq] at this
            have hka : keyOf a = keyOf r :=
              ((compareRecords_eq_zero_iff r a).1 this).symm
            simp [hka, hk]),
          List.nil_append]
      have hrem_sorted : ((scanRun r [] r [] rest).2).Pairwise
          (fun a b => compareRecords a b ≤ 0) := by
        rw [scanRun_rem]
        exact List.Pairwise.sublist (List.dropWhile_sublist _) hsort'
      rw [hg]
      exact ih hrem_sorted (by rwa [hfeq] at helig)

/-- Eligible record used in counterexamples: mapped, primary, key
`(0, 100, -1, 0, 0)`, score 10. -/
def recElig : SamRecM := ⟨0, 2, 100, 0, 10, 1, 0, -1, 0, 10, 0, false⟩

/-- Secondary-alignment record (flag 256) with the same duplicate key as
`recElig`, score 5. -/
def recSec : SamRecM := ⟨0, 2, 100, 0, 10, 1, 0, -1, 256, 5, 0, false⟩

/-- C3 counterexample.  `recSec` has the secondary bit set, yet the
duplicate-marking scan marks it as a duplicate when it falls inside a run
headed by the eligible record `recElig` with the same key: the scan only
checks eligibility at the head of a run. -/
theorem markdup_marks_ineligible_inside_run :
    ineligibleFlag recSec = true ∧
    compareRecords recElig recSec = 0 ∧
    ineligibleFlag recElig = false ∧
    [recElig, recSec].Pairwise (fun a b => compareRecords a b ≤ 0) ∧
    (markScan [recElig, recSec]).map SamRecM.isDuplicate = [false, true] := by
  refine ⟨by decide, by decide, by decide, by decide, ?_⟩
  rw [markScan]
  norm_num [ineligibleFlag, recElig, recSec, scanRun, compareRecords, markScan, markDup]

/-- C3 amended.  In a sorted record list, an unmapped/secondary/supplementary
record that is the *first member of its key group* is skipped entirely by the
scan: the group's first output member is that record, unchanged (in
particular it is not marked and is never used as the best candidate).
Ineligible records that fall later inside a run headed by an eligible record
are treated like any other run member. -/
theorem markdup_ineligible_group_head (l : List SamRecM)
    (k : Int × Int × Int × Int × Nat) (h0 : SamRecM)
    (hsort : l.Pairwise (fun a b => compareRecords a b ≤ 0))
    (hhead : (keyGroup k l).head? = some h0)
    (hinelig : ineligibleFlag h0 = true) :
    (keyGroup k (markScan l)).head? = some h0 := by
  revert hsort hhead
  unfold keyGroup
  induction l using markScan.induct with
  | case1 =>
    intro _ hhead
    simp at hhead
  | case2 r rest hin ih =>
    intro hsort hhead
    have hsort' : rest.Pairwise (fun a b => compareRecords a b ≤ 0) :=
      (List.pairwise_cons.1 hsort).2
    by_cases hk : keyOf r = k
    · have hh0 : h0 = r := by
        rw [List.filter_cons, if_pos (by simp [hk])] at hhead
        simpa using hhead.symm
      rw [markScan, if_pos hin, List.filter_cons, if_pos (by simp [hk])]
      simp [hh0]
    · rw [markScan, if_pos hin, List.filter_cons, if_neg (by simp [hk])]
      rw [List.filter_cons, if_neg (by simp [hk])] at hhead
      exact ih hsort' hhead
  | case3 r rest hin ih =>
    intro hsort hhead
    have hsort' : rest.Pairwise (fun a b => compareRecords a b ≤ 0) :=
      (List.pairwise_cons.1 hsort).2
    by_cases hk : keyOf r = k
    · exfalso
      have hh0 : h0 = r := by
        rw [List.filter_cons, if_pos (by simp [hk])] at hhead
        simpa using hhead.symm
      rw [hh0] at hinelig
      exact hin hinelig
    · obtain ⟨pre', best', post', hout, hkb, hpre, hpost⟩ :=
        scanRun_shape r rest [] [] r rfl (by simp) (by simp)
      have hall : ∀ x ∈ (scanRun r [] r [] rest).1, keyOf x = keyOf r := by
        rw [hout]
        intro x hx
        rcases List.mem_append.1 hx with hx | hx
        · exact (hpre x hx).1
        · rcases List.mem_cons.1 hx with rfl | hx
          · exact hkb
          · exact (hpost x hx).1
      have hg : (markScan (r :: rest)).filter (fun x => decide (keyOf x = k))
          = (markScan (scanRun r [] r [] rest).2).filter
              (fun x => decide (keyOf x = k)) := by
        rw [markScan, if_neg hin, List.filter_append,
          List.filter_eq_nil_iff.2 (fun a ha => by simp [hall a ha, hk]),
          List.nil_append]
      have hfeq : ((r :: rest).filter (fun x => decide (keyOf x = k)))
          = ((scanRun r [] r [] rest).2).filter (fun x => decide (keyOf x = k)) := by
        rw [List.filter_cons, scanRun_rem]
        have hrw : rest = rest.takeWhile (fun t => decide (compareRecords r t = 0))
            ++ rest.dropWhile (fun t => decide (compareRecords r t = 0)) :=
          (List.takeWhile_append_dropWhile _ _).symm
        rw [if_neg (by simp [hk])]
        conv_lhs => rw [hrw]
        rw [List.filter_append,
          List.filter_eq_nil_iff.2 (fun a ha => by
            have := List.mem_takeWhile_imp ha
            simp only [decide_eq_true_eq] at this
            have hka : keyOf a = keyOf r :=
              ((compareRecords_eq_zero_iff r a).1 this).symm
            simp [hka, hk]),
          List.nil_append]
      have hrem_sorted : ((scanRun r [] r [] rest).2).Pairwise
          (fun a b => compareRecords a b ≤ 0) := by
        rw [scanRun_rem]
        exact List.Pairwise.sublist (List.dropWhile_sublist _) hsort'
      rw [hg]
      exact ih hrem_sorted (by rwa [hfeq] at hhead)

/-- Eligible record with the same key as `recElig` but score 20, later in
file order. -/
def recElig2 : SamRecM := ⟨30, 32, 100, 0, 10, 1, 0, -1, 0, 20, 0, false⟩

theorem markdup_group_best_survivor_witness :
    ([recElig, recElig2].Pairwise (fun a b => compareRecords a b ≤ 0)) ∧
    ((keyGroup (0, 100, -1, 0, 0) [recElig, recElig2]).head?.all
        (fun h0 => ! ineligibleFlag h0)) = true ∧
    ((keyGroup (0, 100, -1, 0, 0) (markScan [recElig, recElig2])).filter
        (fun x => ! x.isDuplicate)).length ≤ 1 :=
  ⟨by decide, by decide,
    (markdup_group_best_survivor [recElig, recElig2] (0, 100, -1, 0, 0)
      (by decide) (by decide)).1⟩

theorem markdup_ineligible_group_head_witness :
    (keyGroup (0, 100, -1, 0, 0) [recSec]).head? = some recSec ∧
    ineligibleFlag recSec = true ∧
    (keyGroup (0, 100, -1, 0, 0) (markScan [recSec])).head? = some recSec :=
  ⟨by decide, by decide,
    markdup_ineligible_group_head [recSec] (0, 100, -1, 0, 0) recSec
      (by decide) (by decide) (by decide)⟩

/-! ## Quality score (`calc_score` and the clamp in `parse_sam_line_markdup`) -/

/-- `calc_score`: for each quality byte, `q = c - 33` (Phred+33), capped above
at 15, added only when strictly positive. -/
def calcScore (qual : List Nat) : Int :=
  qual.foldl
    (fun (score : Int) (c : Nat) =>
      let q : Int := (c : Int) - 33
      let q2 : Int := if q > 15 then 15 else q
      if q2 > 0 then score + q2 else score) 0

/-- Score stored by `parse_sam_line_markdup` (case 10): `calc_score` clamped
to `[0, 65535]` and stored in a `uint16_t`. -/
def scoreOfQual (qual : List Nat) : Nat :=
  (if calcScore qual < 0 then 0
   else if calcScore qual > 65535 then 65535
   else calcScore qual).toNat

/-- Score formula as worded by the spec (for refinement comparison):
`min(15, c - 33)` summed over all characters, then clamped to `[0, 65535]`. -/
def specScoreOfQual (qual : List Nat) : Int :=
  if (qual.map (fun (c : Nat) => min 15 ((c : Int) - 33))).sum < 0 then 0
  else if (qual.map (fun (c : Nat) => min 15 ((c : Int) - 33))).sum > 65535 then 65535
  else (qual.map (fun (c : Nat) => min 15 ((c : Int) - 33))).sum

theorem calcScore_eq (qual : List Nat) :
    calcScore qual = (((qual.map (fun c => min 15 (c - 33))).sum : Nat) : Int) := by
  unfold calcScore
  have aux : ∀ (l : List Nat) (acc : Int),
      (l.foldl
        (fun (score : Int) (c : Nat) =>
          let q : Int := (c : Int) - 33
          let q2 : Int := if q > 15 then 15 else q
          if q2 > 0 then score + q2 else score) acc)
      = acc + (((l.map (fun c => min 15 (c - 33))).sum : Nat) : Int) := by
    intro l
    induction l with
    | nil => intro acc; simp
    | cons c cs ih =>
      intro acc
      rw [List.foldl_cons, ih, List.map_cons, List.sum_cons]
      have hstep :
          (let q : Int := (c : Int) - 33
           let q2 : Int := if q > 15 then 15 else q
           if q2 > 0 then acc + q2 else acc)
          = acc + ((min 15 (c - 33) : Nat) : Int) := by
        simp only []
        split_ifs <;> omega
      rw [hstep]
      push_cast
      ring
  rw [aux]
  ring

/-- C4 amended.  The parser's duplicate score is the sum of
`min(15, c - 33)` over the quality bytes where characters at or below 33
contribute zero (natural-number truncation), clamped above at 65535; and it
agrees with the claim's formula `clamp(sum of min(15, c - 33))` whenever
every quality character is at least 33 (every valid Phred+33 string). -/
theorem parse_score_spec (qual : List Nat) :
    scoreOfQual qual = min 65535 ((qual.map (fun c => min 15 (c - 33))).sum) ∧
    ((∀ c ∈ qual, 33 ≤ c) → (scoreOfQual qual : Int) = specScoreOfQual qual) := by
  have h := calcScore_eq qual
  constructor
  · unfold scoreOfQual
    rw [h]
    split_ifs <;> omega
  · intro h33
    have hsum : ∀ (l : List Nat), (∀ c ∈ l, 33 ≤ c) →
        (((l.map (fun c => min 15 (c - 33))).sum : Nat) : Int)
          = (l.map (fun (c : Nat) => min 15 ((c : Int) - 33))).sum := by
      intro l
      induction l with
      | nil => intro _; simp
      | cons c cs ih =>
        intro hl
        have hc : 33 ≤ c := hl c (by simp)
        have ih' := ih (fun d hd => hl d (by simp [hd]))
        simp only [List.map_cons, List.sum_cons]
        push_cast
        push_cast at ih'
        rw [ih']
        have hmin : ((min 15 (c - 33) : Nat) : Int) = min 15 ((c : Int) - 33) := by
          omega
        push_cast at hmin
        omega
    unfold scoreOfQual specScoreOfQual
    rw [h, hsum qual h33]
    split_ifs <;> omega

/-- C4 counterexample.  For the quality bytes `[32, 35]` the code computes
score 2 (the byte 32 contributes nothing), while the claim's formula
`clamp(sum of min(15, c - 33))` gives `min(15,-1) + min(15,2) = 1`. -/
theorem calc_score_claim_counterexample :
    scoreOfQual [32, 35] = 2 ∧ specScoreOfQual [32, 35] = 1 ∧
    ¬ ((scoreOfQual [32, 35] : Int) = specScoreOfQual [32, 35]) := by
  refine ⟨?_, by decide, ?_⟩ <;> decide

theorem parse_score_spec_witness :
    (∀ c ∈ [70, 35], 33 ≤ c) ∧
    (scoreOfQual [70, 35] : Int) = specScoreOfQual [70, 35] :=
  ⟨by decide, (parse_score_spec [70, 35]).2 (by decide)⟩

/-! ## SAM parsing and output for `markdup_core` (`src/slave/slave.c`)

Buffer positions are explicit `Nat` offsets; byte reads use `List.getD`
(the C code only reads in-bounds positions).  The `while` loops over buffer
positions become recursive functions on the remaining length; the outer
record-collection loop uses explicit fuel (seeded above the buffer length,
so it never runs out on the actual input). -/

/-- `get_ref_id`: `*` maps to the no-reference id `-1`; otherwise look the
name up, or append it if fewer than `MAX_REFS = 256` names are stored.  Name
comparison (`strncmp` plus NUL test in C) is byte-string equality; the C
code truncates stored names to 255 bytes, which never triggers for SAM
reference names. -/
def getRefId (map : List (List Nat)) (rname : List Nat) : Int × List (List Nat) :=
  if rname = [42] then (-1, map)
  else
    match map.findIdx? (fun m => m == rname) with
    | some i => ((i : Int), map)
    | none =>
      if map.length ≥ 256 then (-1, map)
      else ((map.length : Int), map ++ [rname])

/-- Zero-initialized `sam_record_t` (the `memset`), with `line_offset` and
`line_len` filled in. -/
def samRecInit (lineOffset lineLen : Nat) : SamRecM :=
  ⟨lineOffset, 0, 0, 0, lineLen, 0, 0, 0, 0, 0, 0, false⟩

/-- One arm of the field `switch` in `parse_sam_line_markdup`.  The
`(int16_t)` casts on reference ids are identities (`get_ref_id` returns
values in `[-1, 255]`); `atoi` reads from the field start onward (bounded
here to the line). -/
def applyField (line : List Nat) (lineOffset : Nat)
    (field fieldStart fieldLen : Nat) (rec : SamRecM) (map : List (List Nat)) :
    SamRecM × List (List Nat) :=
  if field = 1 then
    ({ rec with
        flagOffset := lineOffset + fieldStart
        flagLen := fieldLen
        flag := toUInt16 (atoiBytes (line.drop fieldStart)) }, map)
  else if field = 2 then
    ({ rec with tid := (getRefId map (byteSlice line fieldStart (fieldStart + fieldLen))).1 },
     (getRefId map (byteSlice line fieldStart (fieldStart + fieldLen))).2)
  else if field = 3 then
    ({ rec with pos := toInt32 (atoiBytes (line.drop fieldStart)) }, map)
  else if field = 6 then
    (if fieldLen = 1 ∧ line.getD fieldStart 0 = 61 then
      ({ rec with mateTid := rec.tid }, map)
    else
      ({ rec with mateTid := (getRefId map (byteSlice line fieldStart (fieldStart + fieldLen))).1 },
       (getRefId map (byteSlice line fieldStart (fieldStart + fieldLen))).2))
  else if field = 7 then
    ({ rec with matePos := toInt32 (atoiBytes (line.drop fieldStart)) }, map)
  else if field = 10 then
    ({ rec with score := scoreOfQual (byteSlice line fieldStart (fieldStart + fieldLen)) }, map)
  else (rec, map)

/-- Field-splitting loop of `parse_sam_line_markdup` (with explicit fuel):
a field ends at a tab or at the last byte of the line; at most 11 fields are
consumed.  Returns the record, the reference map, and the number of fields
seen. -/
def parseFieldsGo (line : List Nat) (lineOffset : Nat) :
    Nat → Nat → Nat → Nat → SamRecM → List (List Nat) →
    SamRecM × List (List Nat) × Nat
  | 0, _, field, _, rec, map => (rec, map, field)
  | fuel + 1, q, field, fieldStart, rec, map =>
    if q < line.length ∧ field < 11 then
      if line.getD q 0 = 9 ∨ q = line.length - 1 then
        parseFieldsGo line lineOffset fuel (q + 1) (field + 1) (q + 1)
          (applyField line lineOffset field fieldStart
            (if q = line.length - 1 ∧ line.getD q 0 ≠ 9
             then line.length - fieldStart else q - fieldStart) rec map).1
          (applyField line lineOffset field fieldStart
            (if q = line.length - 1 ∧ line.getD q 0 ≠ 9
             then line.length - fieldStart else q - fieldStart) rec map).2
      else parseFieldsGo line lineOffset fuel (q + 1) field fieldStart rec map
    else (rec, map, field)

/-- `parse_sam_line_markdup`: split fields, then derive the orientation from
the flag; succeeds iff at least 11 fields were seen.  The reference map is
returned (and kept by the caller) even on failure. -/
def parseSamLineMarkdup (line : List Nat) (lineOffset : Nat)
    (map : List (List Nat)) : Option SamRecM × List (List Nat) :=
  ((fun res =>
    ((if (res.2.2 : Nat) ≥ 11 then
        some (if res.1.flag &&& 1 ≠ 0 then
          { res.1 with orientation :=
              (if res.1.flag &&& 16 ≠ 0 then 1 else 0) |||
              ((if res.1.flag &&& 32 ≠ 0 then 1 else 0) <<< 1) }
        else res.1)
      else none), res.2.1))
    (parseFieldsGo line lineOffset (line.length + 1) 0 0 0
      (samRecInit lineOffset line.length) map))

/-- Fueled position scan `while (pos < size && buf[pos] != '\n') pos++`. -/
def skipToNlF (buf : List Nat) : Nat → Nat → Nat
  | 0, pos => pos
  | fuel + 1, pos =>
    if pos < buf.length ∧ buf.getD pos 0 ≠ 10 then skipToNlF buf fuel (pos + 1)
    else pos

/-- Position scan `while (pos < size && buf[pos] != '\n') pos++`. -/
def skipToNl (buf : List Nat) (pos : Nat) : Nat :=
  skipToNlF buf (buf.length + 1) pos

theorem skipToNlF_ge (buf : List Nat) :
    ∀ fuel pos, pos ≤ skipToNlF buf fuel pos := by
  intro fuel
  induction fuel with
  | zero => intro pos; rw [skipToNlF]
  | succ fuel ih =>
    intro pos
    rw [skipToNlF]
    split_ifs with h
    · exact le_trans (by omega) (ih (pos + 1))
    · exact le_refl pos

theorem skipToNlF_le (buf : List Nat) :
    ∀ fuel pos, pos ≤ buf.length → skipToNlF buf fuel pos ≤ buf.length := by
  intro fuel
  induction fuel with
  | zero => intro pos h; rw [skipToNlF]; exact h
  | succ fuel ih =>
    intro pos h
    rw [skipToNlF]
    split_ifs with hc
    · exact ih (pos + 1) (by omega)
    · exact h

theorem skipToNl_ge (buf : List Nat) (pos : Nat) : pos ≤ skipToNl buf pos :=
  skipToNlF_ge buf _ pos

theorem skipToNl_le (buf : List Nat) (pos : Nat) (h : pos ≤ buf.length) :
    skipToNl buf pos ≤ buf.length :=
  skipToNlF_le buf _ pos h

/-- Fueled scan `while (pos < size && buf[pos] != '\n' && buf[pos] != '\r')`. -/
def scanLineEndF (buf : List Nat) : Nat → Nat → Nat
  | 0, pos => pos
  | fuel + 1, pos =>
    if pos < buf.length ∧ buf.getD pos 0 ≠ 10 ∧ buf.getD pos 0 ≠ 13 then
      scanLineEndF buf fuel (pos + 1)
    else pos

/-- Position scan `while (pos < size && buf[pos] != '\n' && buf[pos] != '\r')`. -/
def scanLineEnd (buf : List Nat) (pos : Nat) : Nat :=
  scanLineEndF buf (buf.length + 1) pos

theorem scanLineEndF_ge (buf : List Nat) :
    ∀ fuel pos, pos ≤ scanLineEndF buf fuel pos := by
  intro fuel
  induction fuel with
  | zero => intro pos; rw [scanLineEndF]
  | succ fuel ih =>
    intro pos
    rw [scanLineEndF]
    split_ifs with h
    · exact le_trans (by omega) (ih (pos + 1))
    · exact le_refl pos

theorem scanLineEndF_le (buf : List Nat) :
    ∀ fuel pos, pos ≤ buf.length → scanLineEndF buf fuel pos ≤ buf.length := by
  intro fuel
  induction fuel with
  | zero => intro pos h; rw [scanLineEndF]; exact h
  | succ fuel ih =>
    intro pos h
    rw [scanLineEndF]
    split_ifs with hc
    · exact ih (pos + 1) (by omega)
    · exact h

theorem scanLineEnd_ge (buf : List Nat) (pos : Nat) : pos ≤ scanLineEnd buf pos :=
  scanLineEndF_ge buf _ pos

theorem scanLineEnd_le (buf : List Nat) (pos : Nat) (h : pos ≤ buf.length) :
    scanLineEnd buf pos ≤ buf.length :=
  scanLineEndF_le buf _ pos h

/-- Fueled header/empty-line skipping at the top of the record-collection
loop of `markdup_core`: consume newlines, carriage returns, and whole `@`
lines. -/
def skipHdrF (buf : List Nat) : Nat → Nat → Nat
  | 0, pos => pos
  | fuel + 1, pos =>
    if pos < buf.length ∧
        (buf.getD pos 0 = 10 ∨ buf.getD pos 0 = 13 ∨ buf.getD pos 0 = 64) then
      if buf.getD pos 0 = 64 then
        skipHdrF buf fuel
          (if skipToNl buf pos < buf.length then skipToNl buf pos + 1 else skipToNl buf pos)
      else skipHdrF buf fuel (pos + 1)
    else pos

/-- Header/empty-line skipping loop of `markdup_core`. -/
def skipHdr (buf : List Nat) (pos : Nat) : Nat :=
  skipHdrF buf (buf.length + 1) pos

theorem skipHdrF_ge (buf : List Nat) :
    ∀ fuel pos, pos ≤ skipHdrF buf fuel pos := by
  intro fuel
  induction fuel with
  | zero => intro pos; rw [skipHdrF]
  | succ fuel ih =>
    intro pos
    rw [skipHdrF]
    have h1 := skipToNl_ge buf pos
    by_cases h : pos < buf.length ∧
        (buf.getD pos 0 = 10 ∨ buf.getD pos 0 = 13 ∨ buf.getD pos 0 = 64)
    · rw [if_pos h]
      by_cases h64 : buf.getD pos 0 = 64
      · rw [if_pos h64]
        refine le_trans ?_ (ih _)
        split_ifs <;> omega
      · rw [if_neg h64]
        exact le_trans (by omega) (ih (pos + 1))
    · rw [if_neg h]

theorem skipHdr_ge (buf : List Nat) (pos : Nat) : pos ≤ skipHdr buf pos :=
  skipHdrF_ge buf _ pos

/-- Advance past the newline that terminates a line
(`if (pos < size && in_buf[pos] == '\n') pos++`). -/
def nextLinePos (buf : List Nat) (p2 : Nat) : Nat :=
  if p2 < buf.length ∧ buf.getD p2 0 = 10 then p2 + 1 else p2

/-- Record-collection loop of `markdup_core` (first pass), with explicit
fuel.  Records are accumulated in file order; the reference map threads
through all parse attempts. -/
def parsePassGo (buf : List Nat) :
    Nat → Nat → List (List Nat) → List SamRecM × List (List Nat)
  | 0, _, map => ([], map)
  | fuel + 1, pos, map =>
    if skipHdr buf pos ≥ buf.length then ([], map)
    else if scanLineEnd buf (skipHdr buf pos) - skipHdr buf pos = 0 then
      parsePassGo buf fuel (nextLinePos buf (scanLineEnd buf (skipHdr buf pos))) map
    else
      match parseSamLineMarkdup
          (byteSlice buf (skipHdr buf pos) (scanLineEnd buf (skipHdr buf pos)))
          (skipHdr buf pos) map with
      | (none, map2) =>
        parsePassGo buf fuel (nextLinePos buf (scanLineEnd buf (skipHdr buf pos))) map2
      | (some r, map2) =>
        match parsePassGo buf fuel
            (nextLinePos buf (scanLineEnd buf (skipHdr buf pos))) map2 with
        | (rs, map3) => (r :: rs, map3)

/-- First pass of `markdup_core` over a whole buffer. -/
def parsePass (buf : List Nat) : List SamRecM × List (List Nat) :=
  parsePassGo buf (buf.length + 1) 0 []

/-- Deterministic model of the `qsort(records, count, ..., compare_records)`
call: a stable insertion sort.  `qsort` leaves the relative order of
equal-comparing elements unspecified; stability is one admissible refinement
of it (all concrete inputs used below have pairwise distinct keys, where the
order is fully determined). -/
def insertRec (r : SamRecM) : List SamRecM → List SamRecM
  | [] => [r]
  | x :: xs => if compareRecords x r < 0 then x :: insertRec r xs else r :: x :: xs

def sortRecs : List SamRecM → List SamRecM
  | [] => []
  | r :: rs => insertRec r (sortRecs rs)

/-- `mark_duplicates_sorted`: sort the record array by `compare_records`,
then scan it for duplicates (no-op on fewer than two records). -/
def markDuplicatesSorted (recs : List SamRecM) : List SamRecM :=
  if recs.length ≤ 1 then recs else markScan (sortRecs recs)

/-- New flag value written by `write_sam_record`:
`flag | BAM_FDUP` when the record is marked. -/
def newFlagOf (r : SamRecM) : Nat :=
  if r.isDuplicate then r.flag ||| 1024 else r.flag

/-- Bytes emitted by `write_sam_record` for one record: the line's bytes
before the FLAG field, the decimal text of the new flag, the bytes after the
FLAG field, and a newline. -/
def recBytes (buf : List Nat) (r : SamRecM) : List Nat :=
  byteSlice buf r.lineOffset r.flagOffset
    ++ decimalBytes (newFlagOf r)
    ++ byteSlice buf (r.flagOffset + r.flagLen) (r.lineOffset + r.lineLen)
    ++ [10]

/-- `write_sam_record`: capacity is checked against
`line_len - flag_len + flag_str_len + 1` before any byte is copied; on
success the record's rewritten bytes are appended. -/
def writeSamRecord (buf : List Nat) (cap : Nat) (out : List Nat) (r : SamRecM) :
    Bool × List Nat :=
  if out.length + (r.lineLen - r.flagLen + (decimalBytes (newFlagOf r)).length + 1) > cap
  then (false, out)
  else (true, out ++ recBytes buf r)

/-- Record-writing loop of `markdup_core` (second pass): stops at the first
record that does not fit. -/
def writeRecordsLoop (buf : List Nat) (cap : Nat) :
    List SamRecM → List Nat → Bool × List Nat
  | [], out => (true, out)
  | r :: rs, out =>
    if (writeSamRecord buf cap out r).1 then
      writeRecordsLoop buf cap rs (writeSamRecord buf cap out r).2
    else (false, (writeSamRecord buf cap out r).2)

/-- Fueled header-copying loop of `markdup_core` (second pass): copy leading
`@` lines verbatim, checking capacity per line before copying. -/
def headerEmitLoopF (buf : List Nat) (cap : Nat) :
    Nat → Nat → List Nat → Bool × List Nat
  | 0, _, out => (true, out)
  | fuel + 1, pos, out =>
    if pos < buf.length ∧ buf.getD pos 0 = 64 then
      if out.length +
          ((if skipToNl buf pos < buf.length then skipToNl buf pos + 1 else skipToNl buf pos)
            - pos) > cap then (false, out)
      else
        headerEmitLoopF buf cap fuel
          (if skipToNl buf pos < buf.length then skipToNl buf pos + 1 else skipToNl buf pos)
          (out ++ byteSlice buf pos
            (if skipToNl buf pos < buf.length then skipToNl buf pos + 1 else skipToNl buf pos))
    else (true, out)

/-- Header-copying loop of `markdup_core` (second pass). -/
def headerEmitLoop (buf : List Nat) (cap : Nat) (pos : Nat) (out : List Nat) :
    Bool × List Nat :=
  headerEmitLoopF buf cap (buf.length + 1) pos out

/-- Fueled variant of the leading-`@`-header-line list of a buffer. -/
def headerLinesFromF (buf : List Nat) : Nat → Nat → List (List Nat)
  | 0, _ => []
  | fuel + 1, pos =>
    if pos < buf.length ∧ buf.getD pos 0 = 64 then
      byteSlice buf pos
          (if skipToNl buf pos < buf.length then skipToNl buf pos + 1 else skipToNl buf pos)
        :: headerLinesFromF buf fuel
          (if skipToNl buf pos < buf.length then skipToNl buf pos + 1 else skipToNl buf pos)
    else []

/-- The leading `@` header lines of a buffer, each with its terminating
newline (or running to the end of the buffer), as copied by the header loop
of `markdup_core`. -/
def headerLinesFrom (buf : List Nat) (pos : Nat) : List (List Nat) :=
  headerLinesFromF buf (buf.length + 1) pos

/-- `markdup_core`: returns `(ret, *out_size, out_buf contents)`.  `*out_size`
is initialized to 0 and only set on full success; any capacity failure (or an
empty buffer) leaves it 0 with `ret = -1`. -/
def markdupCore (buf : List Nat) (cap : Nat) : Int × Nat × List Nat :=
  if buf.length = 0 then (-1, 0, [])
  else
    if (headerEmitLoop buf cap 0 []).1 = false then
      (-1, 0, (headerEmitLoop buf cap 0 []).2)
    else
      if (writeRecordsLoop buf cap (markDuplicatesSorted (parsePass buf).1)
            (headerEmitLoop buf cap 0 []).2).1 = false then
        (-1, 0, (writeRecordsLoop buf cap (markDuplicatesSorted (parsePass buf).1)
            (headerEmitLoop buf cap 0 []).2).2)
      else
        (0, (writeRecordsLoop buf cap (markDuplicatesSorted (parsePass buf).1)
              (headerEmitLoop buf cap 0 []).2).2.length,
         (writeRecordsLoop buf cap (markDuplicatesSorted (parsePass buf).1)
            (headerEmitLoop buf cap 0 []).2).2)

/-- All lines `markdup_core` would emit for a buffer, in emission order:
header lines first, then the records (in the order of the record array after
`mark_duplicates_sorted`), each rewritten by `write_sam_record`. -/
def markdupLines (buf : List Nat) : List (List Nat) :=
  headerLinesFrom buf 0
    ++ (markDuplicatesSorted (parsePass buf).1).map (recBytes buf)

/-! ### Well-formedness of parsed records (FLAG field lies inside the line,
the line lies inside the buffer) -/

/-- Structural facts about a record's byte spans that `markdup_core`'s
second pass relies on. -/
def recWf (buf : List Nat) (r : SamRecM) : Prop :=
  r.lineOffset ≤ r.flagOffset ∧
  r.flagOffset + r.flagLen ≤ r.lineOffset + r.lineLen ∧
  r.lineOffset + r.lineLen ≤ buf.length

theorem byteSlice_length {l : List Nat} {a b : Nat} (hab : a ≤ b)
    (hb : b ≤ l.length) : (byteSlice l a b).length = b - a := by
  simp [byteSlice]
  omega

theorem applyField_preserve (line : List Nat) (lineOffset field fieldStart fieldLen : Nat)
    (rec : SamRecM) (map : List (List Nat)) (hf : field ≠ 1) :
    (applyField line lineOffset field fieldStart fieldLen rec map).1.flagOffset
        = rec.flagOffset ∧
    (applyField line lineOffset field fieldStart fieldLen rec map).1.flagLen
        = rec.flagLen ∧
    (applyField line lineOffset field fieldStart fieldLen rec map).1.lineOffset
        = rec.lineOffset ∧
    (applyField line lineOffset field fieldStart fieldLen rec map).1.lineLen
        = rec.lineLen := by
  unfold applyField
  split_ifs <;> simp_all

theorem applyField_line (line : List Nat) (lineOffset field fieldStart fieldLen : Nat)
    (rec : SamRecM) (map : List (List Nat)) :
    (applyField line lineOffset field fieldStart fieldLen rec map).1.lineOffset
        = rec.lineOffset ∧
    (applyField line lineOffset field fieldStart fieldLen rec map).1.lineLen
        = rec.lineLen := by
  unfold applyField
  split_ifs <;> simp_all

theorem applyField_one (line : List Nat) (lineOffset fieldStart fieldLen : Nat)
    (rec : SamRecM) (map : List (List Nat)) :
    (applyField line lineOffset 1 fieldStart fieldLen rec map).1.flagOffset
        = lineOffset + fieldStart ∧
    (applyField line lineOffset 1 fieldStart fieldLen rec map).1.flagLen
        = fieldLen := by
  simp [applyField]

theorem parseFieldsGo_wf (line : List Nat) (lineOffset : Nat) :
    ∀ (fuel q field fieldStart : Nat) (rec : SamRecM) (map : List (List Nat)),
      fieldStart ≤ q →
      rec.lineOffset = lineOffset → rec.lineLen = line.length →
      (2 ≤ field → lineOffset ≤ rec.flagOffset ∧
        rec.flagOffset + rec.flagLen ≤ lineOffset + line.length) →
      (parseFieldsGo line lineOffset fuel q field fieldStart rec map).1.lineOffset
          = lineOffset ∧
      (parseFieldsGo line lineOffset fuel q field fieldStart rec map).1.lineLen
          = line.length ∧
      (2 ≤ (parseFieldsGo line lineOffset fuel q field fieldStart rec map).2.2 →
        lineOffset
            ≤ (parseFieldsGo line lineOffset fuel q field fieldStart rec map).1.flagOffset ∧
        (parseFieldsGo line lineOffset fuel q field fieldStart rec map).1.flagOffset
            + (parseFieldsGo line lineOffset fuel q field fieldStart rec map).1.flagLen
          ≤ lineOffset + line.length) := by
  intro fuel
  induction fuel with
  | zero =>
    intro q field fieldStart rec map hfs hlo hll hflag
    rw [parseFieldsGo]
    exact ⟨hlo, hll, hflag⟩
  | succ fuel ih =>
    intro q field fieldStart rec map hfs hlo hll hflag
    rw [parseFieldsGo]
    by_cases h : q < line.length ∧ field < 11
    · rw [if_pos h]
      by_cases htab : line.getD q 0 = 9 ∨ q = line.length - 1
      · rw [if_pos htab]
        by_cases hf1 : field = 1
        · subst hf1
          refine ih (q + 1) 2 (q + 1) _ _ (by omega) ?_ ?_ ?_
          · rw [(applyField_line line lineOffset 1 fieldStart _ rec map).1, hlo]
          · rw [(applyField_line line lineOffset 1 fieldStart _ rec map).2, hll]
          · intro _
            obtain ⟨ho, hl⟩ := applyField_one line lineOffset fieldStart _ rec map
            rw [ho, hl]
            constructor
            · omega
            · split_ifs <;> omega
        · refine ih (q + 1) (field + 1) (q + 1) _ _ (by omega) ?_ ?_ ?_
          · rw [(applyField_line line lineOffset field fieldStart _ rec map).1, hlo]
          · rw [(applyField_line line lineOffset field fieldStart _ rec map).2, hll]
          · intro hge
            obtain ⟨h1, h2, h3, h4⟩ :=
              applyField_preserve line lineOffset field fieldStart _ rec map hf1
            rw [h1, h2]
            exact hflag (by omega)
      · rw [if_neg htab]
        exact ih (q + 1) field fieldStart rec map (by omega) hlo hll hflag
    · rw [if_neg h]
      exact ⟨hlo, hll, hflag⟩

theorem parseSamLineMarkdup_wf (line : List Nat) (lineOffset : Nat)
    (map : List (List Nat)) (r : SamRecM)
    (h : (parseSamLineMarkdup line lineOffset map).1 = some r) :
    r.lineOffset = lineOffset ∧ r.lineLen = line.length ∧
    lineOffset ≤ r.flagOffset ∧
    r.flagOffset + r.flagLen ≤ lineOffset + line.length := by
  obtain ⟨w1, w2, w3⟩ :=
    parseFieldsGo_wf line lineOffset (line.length + 1) 0 0 0
      (samRecInit lineOffset line.length) map (by omega) rfl rfl (by omega)
  unfold parseSamLineMarkdup at h
  simp only [ge_iff_le] at h
  split at h
  · obtain ⟨w4, w5⟩ := w3 (by omega)
    split at h <;>
      (cases h; exact ⟨w1, w2, by simpa using w4, by simpa using w5⟩)
  · simp at h

theorem parsePassGo_wf (buf : List Nat) :
    ∀ (fuel pos : Nat) (map : List (List Nat)),
      ∀ r ∈ (parsePassGo buf fuel pos map).1, recWf buf r := by
  intro fuel
  induction fuel with
  | zero => intro pos map r hr; simp [parsePassGo] at hr
  | succ fuel ih =>
    intro pos map r hr
    rw [parsePassGo] at hr
    split at hr
    · simp at hr
    · split at hr
      · exact ih _ _ r hr
      · split at hr
        · exact ih _ _ r hr
        · rename_i rec0 map2 heq
          rcases hpp : parsePassGo buf fuel
              (nextLinePos buf (scanLineEnd buf (skipHdr buf pos))) map2 with ⟨rs, map3⟩
          rw [hpp] at hr
          simp only [] at hr
          rcases List.mem_cons.1 hr with rfl | hr2
          · rename_i hge hlen0
            have hs1 : skipHdr buf pos < buf.length := by omega
            have hs2 : skipHdr buf pos ≤ scanLineEnd buf (skipHdr buf pos) :=
              scanLineEnd_ge buf _
            have hs3 : scanLineEnd buf (skipHdr buf pos) ≤ buf.length :=
              scanLineEnd_le buf _ (by omega)
            have hsl : (byteSlice buf (skipHdr buf pos)
                (scanLineEnd buf (skipHdr buf pos))).length
                = scanLineEnd buf (skipHdr buf pos) - skipHdr buf pos :=
              byteSlice_length hs2 hs3
            obtain ⟨w1, w2, w3, w4⟩ :=
              parseSamLineMarkdup_wf _ _ _ r (by rw [heq])
            unfold recWf
            rw [w1, w2, hsl]
            omega
          · exact ih _ _ r (by rw [hpp]; exact hr2)

theorem parsePass_wf (buf : List Nat) :
    ∀ r ∈ (parsePass buf).1, recWf buf r :=
  parsePassGo_wf buf (buf.length + 1) 0 []

/-! ### Preservation of record facts through sorting and marking -/

theorem insertRec_mem (r : SamRecM) :
    ∀ (l : List SamRecM) (x : SamRecM), x ∈ insertRec r l → x = r ∨ x ∈ l := by
  intro l
  induction l with
  | nil =>
    intro x hx
    rw [insertRec] at hx
    simp at hx
    exact Or.inl hx
  | cons y ys ih =>
    intro x hx
    rw [insertRec] at hx
    split at hx
    · rcases List.mem_cons.1 hx with rfl | hx
      · exact Or.inr (by simp)
      · rcases ih x hx with h | h
        · exact Or.inl h
        · exact Or.inr (by simp [h])
    · rcases List.mem_cons.1 hx with rfl | hx
      · exact Or.inl rfl
      · exact Or.inr hx

theorem sortRecs_mem :
    ∀ (l : List SamRecM) (x : SamRecM), x ∈ sortRecs l → x ∈ l := by
  intro l
  induction l with
  | nil => intro x hx; simpa [sortRecs] using hx
  | cons r rs ih =>
    intro x hx
    rw [sortRecs] at hx
    rcases insertRec_mem r _ x hx with rfl | hx
    · simp
    · simp [ih x hx]

theorem scanRun_forall {Q : SamRecM → Prop} (hQ : ∀ r, Q r → Q (markDup r))
    (h : SamRecM) :
    ∀ (l pre post : List SamRecM) (best : SamRecM),
      (∀ x ∈ pre, Q x) → Q best → (∀ x ∈ post, Q x) → (∀ x ∈ l, Q x) →
      (∀ x ∈ (scanRun h pre best post l).1, Q x) ∧
      (∀ x ∈ (scanRun h pre best post l).2, Q x) := by
  intro l
  induction l with
  | nil =>
    intro pre post best hpre hbest hpost _
    rw [scanRun]
    refine ⟨?_, by simp⟩
    intro x hx
    rcases List.mem_append.1 hx with hx | hx
    · exact hpre x hx
    · rcases List.mem_cons.1 hx with rfl | hx
      · exact hbest
      · exact hpost x hx
  | cons r rest ih =>
    intro pre post best hpre hbest hpost hl
    by_cases hc : compareRecords h r = 0
    · by_cases hs : best.score < r.score
      · rw [scanRun, if_pos hc, if_pos hs]
        refine ih (pre ++ markDup best :: post) [] r ?_ ?_ (by simp) ?_
        · intro x hx
          rcases List.mem_append.1 hx with hx | hx
          · exact hpre x hx
          · rcases List.mem_cons.1 hx with rfl | hx
            · exact hQ best hbest
            · exact hpost x hx
        · exact hl r (by simp)
        · intro x hx; exact hl x (by simp [hx])
      · rw [scanRun, if_pos hc, if_neg hs]
        refine ih pre (post ++ [markDup r]) best hpre hbest ?_ ?_
        · intro x hx
          rcases List.mem_append.1 hx with hx | hx
          · exact hpost x hx
          · have : x = markDup r := by simpa using hx
            subst this
            exact hQ r (hl r (by simp))
        · intro x hx; exact hl x (by simp [hx])
    · rw [scanRun, if_neg hc]
      refine ⟨?_, ?_⟩
      · intro x hx
        rcases List.mem_append.1 hx with hx | hx
        · exact hpre x hx
        · rcases List.mem_cons.1 hx with rfl | hx
          · exact hbest
          · exact hpost x hx
      · intro x hx
        exact hl x hx

theorem markScan_forall {Q : SamRecM → Prop} (hQ : ∀ r, Q r → Q (markDup r)) :
    ∀ (l : List SamRecM), (∀ x ∈ l, Q x) → ∀ x ∈ markScan l, Q x := by
  intro l
  induction l using markScan.induct with
  | case1 => simp [markScan]
  | case2 r rest hin ih =>
    intro hl x hx
    rw [markScan, if_pos hin] at hx
    rcases List.mem_cons.1 hx with rfl | hx
    · exact hl x (by simp)
    · exact ih (fun y hy => hl y (by simp [hy])) x hx
  | case3 r rest hin ih =>
    intro hl x hx
    rw [markScan, if_neg hin] at hx
    have hrun := scanRun_forall hQ r rest [] [] r (by simp) (hl r (by simp))
      (by simp) (fun y hy => hl y (by simp [hy]))
    rcases List.mem_append.1 hx with hx | hx
    · exact hrun.1 x hx
    · exact ih hrun.2 x hx

theorem markDuplicatesSorted_wf (buf : List Nat) (recs : List SamRecM)
    (hwf : ∀ r ∈ recs, recWf buf r) :
    ∀ r ∈ markDuplicatesSorted recs, recWf buf r := by
  unfold markDuplicatesSorted
  split_ifs
  · exact hwf
  · intro r hr
    refine markScan_forall (Q := recWf buf) (fun x hx => hx) (sortRecs recs)
      (fun y hy => hwf y (sortRecs_mem recs y hy)) r hr

/-! ### Capacity behaviour of the output loops -/

theorem recBytes_length {buf : List Nat} {r : SamRecM} (hwf : recWf buf r) :
    (recBytes buf r).length
      = r.lineLen - r.flagLen + (decimalBytes (newFlagOf r)).length + 1 := by
  obtain ⟨w1, w2, w3⟩ := hwf
  unfold recBytes
  rw [List.append_assoc, List.append_assoc]
  simp only [List.length_append, List.length_singleton]
  rw [byteSlice_length w1 (by omega), byteSlice_length (by omega) (by omega)]
  omega

theorem writeRecordsLoop_spec (buf : List Nat) (cap : Nat) :
    ∀ (recs : List SamRecM) (out : List Nat),
      (∀ r ∈ recs, recWf buf r) → out.length ≤ cap →
      (∃ k, (writeRecordsLoop buf cap recs out).2
          = out ++ ((recs.map (recBytes buf)).take k).flatten) ∧
      ((writeRecordsLoop buf cap recs out).1 = true →
        (writeRecordsLoop buf cap recs out).2
            = out ++ (recs.map (recBytes buf)).flatten ∧
        (writeRecordsLoop buf cap recs out).2.length ≤ cap) ∧
      ((writeRecordsLoop buf cap recs out).1 = false →
        cap < out.length + ((recs.map (recBytes buf)).flatten).length) := by
  intro recs
  induction recs with
  | nil =>
    intro out _ hcap
    rw [writeRecordsLoop]
    exact ⟨⟨0, by simp⟩, fun _ => ⟨by simp, hcap⟩, by simp⟩
  | cons r rs ih =>
    intro out hwf hcap
    have hrw : recWf buf r := hwf r (by simp)
    have hlen := recBytes_length hrw
    rw [writeRecordsLoop]
    unfold writeSamRecord
    by_cases hfit :
        out.length + (r.lineLen - r.flagLen + (decimalBytes (newFlagOf r)).length + 1)
          > cap
    · rw [if_pos hfit]
      simp only [if_false, Bool.false_eq_true, false_implies]
      refine ⟨⟨0, by simp⟩, by simp, ?_⟩
      intro _
      simp only [List.map_cons, List.flatten_cons, List.length_append]
      omega
    · rw [if_neg hfit]
      simp only [if_true]
      have hcap' : (out ++ recBytes buf r).length ≤ cap := by
        simp only [List.length_append]
        omega
      obtain ⟨⟨k, hk⟩, htrue, hfalse⟩ :=
        ih (out ++ recBytes buf r) (fun x hx => hwf x (by simp [hx])) hcap'
      refine ⟨⟨k + 1, ?_⟩, ?_, ?_⟩
      · rw [hk]
        simp [List.take_succ_cons]
      · intro hok
        obtain ⟨he, hle⟩ := htrue hok
        exact ⟨by simp [he], hle⟩
      · intro hbad
        have := hfalse hbad
        simp only [List.length_append] at this
        simp only [List.map_cons, List.flatten_cons, List.length_append]
        omega

theorem headerLine_stop_bounds (buf : List Nat) (pos : Nat)
    (h : pos < buf.length) :
    pos < (if skipToNl buf pos < buf.length then skipToNl buf pos + 1
           else skipToNl buf pos) ∧
    (if skipToNl buf pos < buf.length then skipToNl buf pos + 1
     else skipToNl buf pos) ≤ buf.length := by
  have h1 := skipToNl_ge buf pos
  have h2 := skipToNl_le buf pos (by omega)
  split_ifs <;> omega

theorem headerEmitLoopF_spec (buf : List Nat) (cap : Nat) :
    ∀ (fuel pos : Nat) (out : List Nat), out.length ≤ cap →
      (∃ k, (headerEmitLoopF buf cap fuel pos out).2
          = out ++ ((headerLinesFromF buf fuel pos).take k).flatten) ∧
      ((headerEmitLoopF buf cap fuel pos out).1 = true →
        (headerEmitLoopF buf cap fuel pos out).2
            = out ++ (headerLinesFromF buf fuel pos).flatten ∧
        (headerEmitLoopF buf cap fuel pos out).2.length ≤ cap) ∧
      ((headerEmitLoopF buf cap fuel pos out).1 = false →
        cap < out.length + ((headerLinesFromF buf fuel pos).flatten).length) := by
  intro fuel
  induction fuel with
  | zero =>
    intro pos out hcap
    rw [headerEmitLoopF, headerLinesFromF]
    exact ⟨⟨0, by simp⟩, fun _ => ⟨by simp, hcap⟩, by simp⟩
  | succ fuel ih =>
    intro pos out hcap
    rw [headerEmitLoopF, headerLinesFromF]
    by_cases h : pos < buf.length ∧ buf.getD pos 0 = 64
    · simp only [if_pos h]
      obtain ⟨hb1, hb2⟩ := headerLine_stop_bounds buf pos h.1
      have hslice := byteSlice_length (l := buf) (by omega : pos ≤ _) hb2
      by_cases hfit : out.length +
          ((if skipToNl buf pos < buf.length then skipToNl buf pos + 1
            else skipToNl buf pos) - pos) > cap
      · simp only [if_pos hfit]
        refine ⟨⟨0, by simp⟩, by simp, ?_⟩
        intro _
        simp only [List.flatten_cons, List.length_append]
        omega
      · simp only [if_neg hfit]
        have hcap2 : (out ++ byteSlice buf pos
            (if skipToNl buf pos < buf.length then skipToNl buf pos + 1
             else skipToNl buf pos)).length ≤ cap := by
          simp only [List.length_append]
          rw [hslice]
          omega
        obtain ⟨⟨k, hk⟩, htrue, hfalse⟩ := ih _ _ hcap2
        refine ⟨⟨k + 1, ?_⟩, ?_, ?_⟩
        · rw [hk]
          simp [List.take_succ_cons]
        · intro hok
          obtain ⟨he, hle⟩ := htrue hok
          exact ⟨by rw [he]; simp, hle⟩
        · intro hbad
          have := hfalse hbad
          simp only [List.length_append] at this
          simp only [List.flatten_cons, List.length_append]
          omega
    · simp only [if_neg h]
      exact ⟨⟨0, by simp⟩, fun _ => ⟨by simp, hcap⟩, by simp⟩

theorem headerEmitLoop_spec (buf : List Nat) (cap : Nat) :
    ∀ (pos : Nat) (out : List Nat), out.length ≤ cap →
      (∃ k, (headerEmitLoop buf cap pos out).2
          = out ++ ((headerLinesFrom buf pos).take k).flatten) ∧
      ((headerEmitLoop buf cap pos out).1 = true →
        (headerEmitLoop buf cap pos out).2
            = out ++ (headerLinesFrom buf pos).flatten ∧
        (headerEmitLoop buf cap pos out).2.length ≤ cap) ∧
      ((headerEmitLoop buf cap pos out).1 = false →
        cap < out.length + ((headerLinesFrom buf pos).flatten).length) := by
  intro pos out hcap
  exact headerEmitLoopF_spec buf cap (buf.length + 1) pos out hcap

/-- C5.  If the rewritten output (headers plus flag-rewritten records) would
exceed the destination capacity, `markdup_core` reports output length 0 and
return value -1, and since every line's capacity is checked before any of
its bytes is copied, the bytes written so far are a concatenation of whole
lines (never a partially written line). -/
theorem markdup_capacity_prefail (buf : List Nat) (cap : Nat)
    (hover : cap < ((markdupLines buf).flatten).length) :
    (markdupCore buf cap).1 = -1 ∧
    (markdupCore buf cap).2.1 = 0 ∧
    ∃ k, (markdupCore buf cap).2.2 = ((markdupLines buf).take k).flatten := by
  unfold markdupCore
  by_cases h0 : buf.length = 0
  · rw [if_pos h0]
    exact ⟨rfl, rfl, 0, by simp⟩
  · rw [if_neg h0]
    obtain ⟨⟨k1, hk1⟩, htrue1, hfalse1⟩ := headerEmitLoop_spec buf cap 0 [] (by simp)
    rw [List.nil_append] at hk1
    by_cases hH : (headerEmitLoop buf cap 0 []).1 = false
    · rw [if_pos hH]
      refine ⟨rfl, rfl, min k1 (headerLinesFrom buf 0).length, ?_⟩
      have hmin : (headerLinesFrom buf 0).take k1
          = (headerLinesFrom buf 0).take (min k1 (headerLinesFrom buf 0).length) := by
        rw [List.take_eq_take]
        omega
      rw [hk1, hmin]
      unfold markdupLines
      rw [List.take_append_of_le_length (by omega)]
    · have hT : (headerEmitLoop buf cap 0 []).1 = true := by
        cases hb : (headerEmitLoop buf cap 0 []).1
        · exact absurd hb hH
        · rfl
      rw [if_neg hH]
      obtain ⟨hhe, hhle⟩ := htrue1 hT
      rw [List.nil_append] at hhe
      obtain ⟨⟨k2, hk2⟩, htrue2, hfalse2⟩ :=
        writeRecordsLoop_spec buf cap (markDuplicatesSorted (parsePass buf).1)
          (headerEmitLoop buf cap 0 []).2
          (markDuplicatesSorted_wf buf _ (parsePass_wf buf)) hhle
      by_cases hR : (writeRecordsLoop buf cap (markDuplicatesSorted (parsePass buf).1)
          (headerEmitLoop buf cap 0 []).2).1 = false
      · rw [if_pos hR]
        refine ⟨rfl, rfl,
          (headerLinesFrom buf 0).length
            + min k2 ((markDuplicatesSorted (parsePass buf).1).map (recBytes buf)).length, ?_⟩
        have hmin : ((markDuplicatesSorted (parsePass buf).1).map (recBytes buf)).take k2
            = ((markDuplicatesSorted (parsePass buf).1).map (recBytes buf)).take
                (min k2 ((markDuplicatesSorted (parsePass buf).1).map (recBytes buf)).length) := by
          rw [List.take_eq_take]
          omega
        rw [hk2, hhe, hmin]
        unfold markdupLines
        rw [List.take_append, List.flatten_append]
      · have hRT : (writeRecordsLoop buf cap (markDuplicatesSorted (parsePass buf).1)
            (headerEmitLoop buf cap 0 []).2).1 = true := by
          cases hb : (writeRecordsLoop buf cap (markDuplicatesSorted (parsePass buf).1)
            (headerEmitLoop buf cap 0 []).2).1
          · exact absurd hb hR
          · rfl
        exfalso
        obtain ⟨he2, hle2⟩ := htrue2 hRT
        rw [he2, hhe] at hle2
        unfold markdupLines at hover
        rw [List.flatten_append] at hover
        simp only [List.length_append] at hle2 hover
        omega

/-- C2 amended.  When `markdup_core` succeeds, its output is the header
lines verbatim, followed by the records in the order of the record array
after the duplicate-clustering sort (`mark_duplicates_sorted`) — not in
original file order — each with its original bytes except the rewritten
flag field. -/
theorem markdup_emit_sorted_order (buf : List Nat) (cap : Nat)
    (hok : (markdupCore buf cap).1 = 0) :
    (markdupCore buf cap).2.2
      = (headerLinesFrom buf 0).flatten
        ++ ((markDuplicatesSorted (parsePass buf).1).map (recBytes buf)).flatten := by
  unfold markdupCore at hok ⊢
  by_cases h0 : buf.length = 0
  · rw [if_pos h0] at hok
    simp at hok
  · rw [if_neg h0] at hok ⊢
    obtain ⟨hex1, htrue1, hfalse1⟩ := headerEmitLoop_spec buf cap 0 [] (by simp)
    by_cases hH : (headerEmitLoop buf cap 0 []).1 = false
    · rw [if_pos hH] at hok
      simp at hok
    · have hT : (headerEmitLoop buf cap 0 []).1 = true := by
        cases hb : (headerEmitLoop buf cap 0 []).1
        · exact absurd hb hH
        · rfl
      rw [if_neg hH] at hok ⊢
      obtain ⟨hhe, hhle⟩ := htrue1 hT
      rw [List.nil_append] at hhe
      obtain ⟨hex2, htrue2, hfalse2⟩ :=
        writeRecordsLoop_spec buf cap (markDuplicatesSorted (parsePass buf).1)
          (headerEmitLoop buf cap 0 []).2
          (markDuplicatesSorted_wf buf _ (parsePass_wf buf)) hhle
      by_cases hR : (writeRecordsLoop buf cap (markDuplicatesSorted (parsePass buf).1)
          (headerEmitLoop buf cap 0 []).2).1 = false
      · rw [if_pos hR] at hok
        simp at hok
      · have hRT : (writeRecordsLoop buf cap (markDuplicatesSorted (parsePass buf).1)
            (headerEmitLoop buf cap 0 []).2).1 = true := by
          cases hb : (writeRecordsLoop buf cap (markDuplicatesSorted (parsePass buf).1)
            (headerEmitLoop buf cap 0 []).2).1
          · exact absurd hb hR
          · rfl
        rw [if_neg hR]
        obtain ⟨he2, _⟩ := htrue2 hRT
        rw [he2, hhe]

/-- SAM line `a<tab>0<tab>c<tab>200<tab>0<tab>*<tab>*<tab>0<tab>0<tab>*<tab>!`
with trailing newline (first line of the demo buffer, position 200). -/
def demoLineA : List Nat :=
  [97, 9, 48, 9, 99, 9, 50, 48, 48, 9, 48, 9, 42, 9, 42, 9, 48, 9, 48, 9, 42, 9, 33, 10]

/-- SAM line `b<tab>0<tab>c<tab>100<tab>0<tab>*<tab>*<tab>0<tab>0<tab>*<tab>!`
with trailing newline (second line of the demo buffer, position 100). -/
def demoLineB : List Nat :=
  [98, 9, 48, 9, 99, 9, 49, 48, 48, 9, 48, 9, 42, 9, 42, 9, 48, 9, 48, 9, 42, 9, 33, 10]

/-- Demo buffer: record at position 200 first, record at position 100 second. -/
def demoBuf : List Nat := demoLineA ++ demoLineB

theorem demo_markdup_eval :
    (markdupCore demoBuf 100).1 = 0 ∧
    (markdupCore demoBuf 100).2.2 = demoLineB ++ demoLineA := by
  have h1 : markDuplicatesSorted (parsePass demoBuf).1
      = [⟨24, 26, 100, 0, 23, 1, 0, -1, 0, 0, 0, false⟩,
         ⟨0, 2, 200, 0, 23, 1, 0, -1, 0, 0, 0, false⟩] := by
    have hp : (parsePass demoBuf).1
        = [⟨0, 2, 200, 0, 23, 1, 0, -1, 0, 0, 0, false⟩,
           ⟨24, 26, 100, 0, 23, 1, 0, -1, 0, 0, 0, false⟩] := by decide
    rw [markDuplicatesSorted, hp]
    norm_num [sortRecs, insertRec, markScan, scanRun, compareRecords,
      ineligibleFlag, markDup]
  constructor
  · unfold markdupCore
    rw [h1]
    decide
  · unfold markdupCore
    rw [h1]
    decide

/-- C2 counterexample.  On a buffer whose first line is the position-200
record and whose second line is the position-100 record, `markdup_core`
succeeds and emits the position-100 line first: records are written in the
order of the duplicate-clustering sort, not in original file order. -/
theorem markdup_emit_original_order_counterexample :
    demoBuf = demoLineA ++ demoLineB ∧
    (markdupCore demoBuf 100).1 = 0 ∧
    (markdupCore demoBuf 100).2.2 = demoLineB ++ demoLineA ∧
    demoLineB ++ demoLineA ≠ demoLineA ++ demoLineB :=
  ⟨rfl, demo_markdup_eval.1, demo_markdup_eval.2, by decide⟩

theorem markdup_emit_sorted_order_witness :
    (markdupCore demoBuf 100).1 = 0 ∧
    (markdupCore demoBuf 100).2.2
      = (headerLinesFrom demoBuf 0).flatten
        ++ ((markDuplicatesSorted (parsePass demoBuf).1).map (recBytes demoBuf)).flatten :=
  ⟨demo_markdup_eval.1, markdup_emit_sorted_order demoBuf 100 demo_markdup_eval.1⟩

/-- Header-only demo buffer `@H` plus newline. -/
def demoHdr : List Nat := [64, 72, 10]

theorem markdup_capacity_prefail_witness :
    1 < ((markdupLines demoHdr).flatten).length ∧
    (markdupCore demoHdr 1).1 = -1 ∧
    (markdupCore demoHdr 1).2.1 = 0 :=
  ⟨by decide, (markdup_capacity_prefail demoHdr 1 (by decide)).1,
    (markdup_capacity_prefail demoHdr 1 (by decide)).2.1⟩

/-! ## Region partitioning (`build_regions_for_chr`, `src/pre-tools/auto_region.cpp`)

Bin weights are `double` in C; they are modelled as exact rationals.  The
region-geometry claims proved below hold for every outcome of the
weight-threshold comparisons, so the modelling of the arithmetic is not
load-bearing.  `BIN_SIZE = 1000`. -/

/-- `Region` with 1-based inclusive bounds; `stop` models the C field `end`
(a reserved word in Lean). -/
structure Region where
  start : Int
  stop : Int
deriving DecidableEq, Repr

/-- `bin_end_pos`: `(b + 1) * BIN_SIZE`, clipped to the chromosome length. -/
def binEndPos (b : Nat) (len : Int) : Int := min (((b : Int) + 1) * 1000) len

/-- Bin loop of `build_regions_for_chr`, plus the tail region after the
loop: close a region at the current bin's end once the accumulated weight
reaches the target; `break` when the next region would start past the
chromosome end. -/
def buildRegionsLoop (len : Int) (target : Rat) :
    List Rat → Nat → Rat → Int → List Region
  | [], _, _, regionStart =>
    if regionStart ≤ len then [⟨regionStart, len⟩] else []
  | w :: rest, b, accum, regionStart =>
    if len < regionStart then []
    else if target ≤ accum + w then
      ⟨regionStart, binEndPos b len⟩ ::
        buildRegionsLoop len target rest (b + 1) 0 (binEndPos b len + 1)
    else buildRegionsLoop len target rest (b + 1) (accum + w) regionStart

/-- `build_regions_for_chr`: no regions for a non-positive length; a single
full-length region when there is no bin information; otherwise the bin
loop starting at coordinate 1. -/
def buildRegionsForChr (len : Int) (binWeights : List Rat) (target : Rat) :
    List Region :=
  if len ≤ 0 then []
  else if binWeights.isEmpty then [⟨1, len⟩]
  else buildRegionsLoop len target binWeights 0 0 1

theorem buildRegionsLoop_dead (len : Int) (target : Rat)
    (ws : List Rat) (b : Nat) (accum : Rat) (rs : Int) (h : len < rs) :
    buildRegionsLoop len target ws b accum rs = [] := by
  cases ws with
  | nil => rw [buildRegionsLoop, if_neg (by omega)]
  | cons w rest => rw [buildRegionsLoop, if_pos h]

theorem buildRegionsLoop_spec (len : Int) (target : Rat) :
    ∀ (ws : List Rat) (b : Nat) (accum : Rat) (rs : Int),
      1 ≤ rs → rs ≤ (b : Int) * 1000 + 1 → rs ≤ len →
      buildRegionsLoop len target ws b accum rs ≠ [] ∧
      (∀ h0 ∈ (buildRegionsLoop len target ws b accum rs).head?, h0.start = rs) ∧
      (∀ t ∈ (buildRegionsLoop len target ws b accum rs).getLast?, t.stop = len) ∧
      (buildRegionsLoop len target ws b accum rs).Chain'
        (fun x y => y.start = x.stop + 1) ∧
      (∀ r ∈ buildRegionsLoop len target ws b accum rs,
        r.start ≤ r.stop ∧ rs ≤ r.start ∧ r.stop ≤ len) := by
  intro ws
  induction ws with
  | nil =>
    intro b accum rs h1 h2 h3
    rw [buildRegionsLoop, if_pos h3]
    refine ⟨by simp, by simp, by simp, by simp, ?_⟩
    intro r hr
    have : r = ⟨rs, len⟩ := by simpa using hr
    subst this
    exact ⟨h3, le_refl _, le_refl _⟩
  | cons w rest ih =>
    intro b accum rs h1 h2 h3
    rw [buildRegionsLoop, if_neg (by omega)]
    by_cases hacc : target ≤ accum + w
    · rw [if_pos hacc]
      have hbe1 : rs ≤ binEndPos b len := by
        unfold binEndPos
        have : rs ≤ ((b : Int) + 1) * 1000 := by
          have : ((b : Int)) * 1000 + 1 ≤ ((b : Int) + 1) * 1000 := by ring_nf; omega
          omega
        omega
      by_cases hlast : len ≤ ((b : Int) + 1) * 1000
      · have hbe : binEndPos b len = len := by
          unfold binEndPos
          omega
        rw [hbe]
        rw [buildRegionsLoop_dead len target rest (b + 1) 0 (len + 1) (by omega)]
        refine ⟨by simp, by simp, by simp, by simp, ?_⟩
        intro r hr
        have : r = ⟨rs, len⟩ := by simpa using hr
        subst this
        exact ⟨by rw [← hbe] at h3 ⊢; exact hbe1, le_refl _, le_refl _⟩
      · have hbe : binEndPos b len = ((b : Int) + 1) * 1000 := by
          unfold binEndPos
          omega
        obtain ⟨ne', hh', hl', hc', hb'⟩ := ih (b + 1) 0 (binEndPos b len + 1)
          (by omega) (by rw [hbe]; push_cast; ring_nf; omega) (by omega)
        cases htl : buildRegionsLoop len target rest (b + 1) 0 (binEndPos b len + 1) with
        | nil => exact absurd htl ne'
        | cons y ys =>
          rw [htl] at hh' hl' hc' hb'
          refine ⟨by simp, by simp, ?_, ?_, ?_⟩
          · intro t ht
            rw [List.getLast?_cons_cons] at ht
            exact hl' t ht
          · refine List.Chain'.cons ?_ hc'
            exact hh' y (by simp)
          · intro r hr
            rcases List.mem_cons.1 hr with rfl | hr
            · refine ⟨hbe1, le_refl _, ?_⟩
              show binEndPos b len ≤ len
              unfold binEndPos
              omega
            · obtain ⟨c1, c2, c3⟩ := hb' r hr
              exact ⟨c1, by omega, c3⟩
    · rw [if_neg hacc]
      obtain ⟨ne', hh', hl', hc', hb'⟩ := ih (b + 1) (accum + w) rs
        (by omega) (by push_cast; ring_nf; push_cast at h2; omega) h3
      exact ⟨ne', hh', hl', hc', fun r hr => hb' r hr⟩

theorem chainRegions_head_start_le :
    ∀ (l : List Region), l.Chain' (fun x y => y.start = x.stop + 1) →
      (∀ r ∈ l, r.start ≤ r.stop) →
      ∀ h0 ∈ l.head?, ∀ r ∈ l, h0.start ≤ r.start := by
  intro l
  induction l with
  | nil => intro _ _ h0 hh0; simp at hh0
  | cons x l ih =>
    intro hc hb h0 hh0 r hr
    have hx : x = h0 := by simpa using hh0
    subst hx
    rcases List.mem_cons.1 hr with rfl | hr
    · exact le_refl _
    · cases l with
      | nil => simp at hr
      | cons y t =>
        rw [List.chain'_cons] at hc
        have h1 : x.start ≤ x.stop := hb x (by simp)
        have h2 : y.start ≤ r.start :=
          ih hc.2 (fun s hs => hb s (List.mem_cons_of_mem _ hs)) y (by simp) r hr
        omega

theorem chainRegions_stop_le_last :
    ∀ (l : List Region), l.Chain' (fun x y => y.start = x.stop + 1) →
      (∀ r ∈ l, r.start ≤ r.stop) →
      ∀ r ∈ l, ∀ t ∈ l.getLast?, r.stop ≤ t.stop := by
  intro l
  induction l with
  | nil => intro _ _ r hr; simp at hr
  | cons x l ih =>
    intro hc hb r hr t ht
    cases l with
    | nil =>
      have hrx : r = x := by simpa using hr
      have htx : x = t := by simpa using ht
      subst hrx; subst htx; exact le_refl _
    | cons y tl =>
      rw [List.chain'_cons] at hc
      rw [List.getLast?_cons_cons] at ht
      have hb' : ∀ s ∈ y :: tl, s.start ≤ s.stop :=
        fun s hs => hb s (List.mem_cons_of_mem _ hs)
      rcases List.mem_cons.1 hr with rfl | hr
      · have h1 : y.stop ≤ t.stop := ih hc.2 hb' y (by simp) t ht
        have h2 : y.start ≤ y.stop := hb' y (by simp)
        omega
      · exact ih hc.2 hb' r hr t ht

theorem chainRegions_pairwise :
    ∀ (l : List Region), l.Chain' (fun x y => y.start = x.stop + 1) →
      (∀ r ∈ l, r.start ≤ r.stop) →
      l.Pairwise (fun x y => x.stop < y.start) := by
  intro l
  induction l with
  | nil => intro _ _; exact List.Pairwise.nil
  | cons x l ih =>
    intro hc hb
    have hb' : ∀ s ∈ l, s.start ≤ s.stop :=
      fun s hs => hb s (List.mem_cons_of_mem _ hs)
    refine List.Pairwise.cons ?_ (ih hc.tail hb')
    intro y hy
    cases l with
    | nil => simp at hy
    | cons z tl =>
      rw [List.chain'_cons] at hc
      have h1 : z.start ≤ y.start :=
        chainRegions_head_start_le (z :: tl) hc.2 hb' z (by simp) y hy
      omega

theorem chainRegions_cover :
    ∀ (l : List Region) (s fin : Int), l ≠ [] →
      (∀ h0 ∈ l.head?, h0.start = s) →
      (∀ t ∈ l.getLast?, t.stop = fin) →
      l.Chain' (fun x y => y.start = x.stop + 1) →
      (∀ r ∈ l, r.start ≤ r.stop) →
      ∀ p : Int, (s ≤ p ∧ p ≤ fin) ↔ ∃ r ∈ l, r.start ≤ p ∧ p ≤ r.stop := by
  intro l
  induction l with
  | nil => intro s fin hne; exact absurd rfl hne
  | cons x l ih =>
    intro s fin _ hh hl hc hb p
    have hxs : x.start = s := hh x (by simp)
    cases l with
    | nil =>
      have hxf : x.stop = fin := hl x (by simp)
      constructor
      · intro ⟨hp1, hp2⟩
        exact ⟨x, by simp, by omega, by omega⟩
      · intro ⟨r, hr, hr1, hr2⟩
        have : r = x := by simpa using hr
        subst this
        omega
    | cons y tl =>
      have hcc := hc
      rw [List.chain'_cons] at hcc
      have hb' : ∀ s ∈ y :: tl, s.start ≤ s.stop :=
        fun u hu => hb u (List.mem_cons_of_mem _ hu)
      have hl' : ∀ t ∈ (y :: tl).getLast?, t.stop = fin := by
        intro t ht
        exact hl t (by rw [List.getLast?_cons_cons]; exact ht)
      have ihh := ih y.start fin (by simp) (by simp) hl' hcc.2 hb' p
      have hxstop : x.stop ≤ fin := by
        have := chainRegions_stop_le_last (x :: y :: tl) hc hb x (by simp)
        cases htl : (x :: y :: tl).getLast? with
        | none => simp [List.getLast?_cons_cons] at htl
        | some t =>
          have h1 := this t (by rw [htl]; rfl)
          have h2 := hl t (by rw [htl]; rfl)
          omega
      constructor
      · intro ⟨hp1, hp2⟩
        by_cases hpx : p ≤ x.stop
        · exact ⟨x, by simp, by omega, hpx⟩
        · have : y.start ≤ p ∧ p ≤ fin := by omega
          obtain ⟨r, hr, hr1, hr2⟩ := ihh.1 this
          exact ⟨r, List.mem_cons_of_mem _ hr, hr1, hr2⟩
      · intro ⟨r, hr, hr1, hr2⟩
        rcases List.mem_cons.1 hr with rfl | hr
        · omega
        · have := ihh.2 ⟨r, hr, hr1, hr2⟩
          have hxle : x.start ≤ x.stop := hb x (by simp)
          omega

/-- C8: for every chromosome of positive length and every bin-weight
histogram, `build_regions_for_chr` emits a nonempty list of regions in
increasing genomic order (each region ends strictly before the next
starts), each with `start ≤ end`, consecutive regions contiguous
(next start = previous end + 1), all contained in `[1, len]` (so no region
spans outside this chromosome), and a point `p` lies in some region
exactly when `1 ≤ p ≤ len`: the union is exactly `[1, len]`. -/
theorem region_partition_spec (len : Int) (ws : List Rat) (target : Rat)
    (hlen : 0 < len) :
    buildRegionsForChr len ws target ≠ [] ∧
    (∀ r ∈ buildRegionsForChr len ws target,
      1 ≤ r.start ∧ r.start ≤ r.stop ∧ r.stop ≤ len) ∧
    (buildRegionsForChr len ws target).Chain' (fun x y => y.start = x.stop + 1) ∧
    (buildRegionsForChr len ws target).Pairwise (fun x y => x.stop < y.start) ∧
    (∀ p : Int, (1 ≤ p ∧ p ≤ len) ↔
      ∃ r ∈ buildRegionsForChr len ws target, r.start ≤ p ∧ p ≤ r.stop) := by
  unfold buildRegionsForChr
  rw [if_neg (by omega)]
  by_cases hemp : ws.isEmpty
  · rw [if_pos hemp]
    refine ⟨by simp, ?_, by simp, by simp, ?_⟩
    · intro r hr
      have : r = ⟨1, len⟩ := by simpa using hr
      subst this
      exact ⟨le_refl _, hlen, le_refl _⟩
    · intro p
      constructor
      · intro ⟨h1, h2⟩; exact ⟨⟨1, len⟩, by simp, h1, h2⟩
      · intro ⟨r, hr, h1, h2⟩
        have : r = ⟨1, len⟩ := by simpa using hr
        subst this
        exact ⟨h1, h2⟩
  · rw [if_neg hemp]
    obtain ⟨hne, hh, hl, hc, hb⟩ :=
      buildRegionsLoop_spec len target ws 0 0 1 (le_refl _) (by simp) hlen
    have hb1 : ∀ r ∈ buildRegionsLoop len target ws 0 0 1,
        1 ≤ r.start ∧ r.start ≤ r.stop ∧ r.stop ≤ len := by
      intro r hr
      obtain ⟨c1, c2, c3⟩ := hb r hr
      exact ⟨c2, c1, c3⟩
    refine ⟨hne, hb1, hc, ?_, ?_⟩
    · exact chainRegions_pairwise _ hc (fun r hr => (hb1 r hr).2.1)
    · exact chainRegions_cover _ 1 len hne hh hl hc (fun r hr => (hb1 r hr).2.1)

theorem region_partition_spec_witness :
    (0 : Int) < 2500 ∧
    (∀ r ∈ buildRegionsForChr 2500 [2, 3, 1] 3,
      1 ≤ r.start ∧ r.start ≤ r.stop ∧ r.stop ≤ 2500) ∧
    buildRegionsForChr 2500 [2, 3, 1] 3 = [⟨1, 2000⟩, ⟨2001, 2500⟩] :=
  ⟨by decide, (region_partition_spec 2500 [2, 3, 1] 3 (by decide)).2.1,
    by norm_num [buildRegionsForChr, buildRegionsLoop, binEndPos, min_def]⟩

/-! ## Chromosome whitelist (`is_wanted_chr_name` / `parse_fasta`,
`src/pre-tools/auto_region.cpp`)

Names are byte lists; `"chr" = [99,104,114]`, `'X' = 88`, `'Y' = 89`,
`'0'..'9' = 48..57`. -/

/-- Digit loop of `is_wanted_chr_name`: reject a non-digit, accumulate
`v = v * 10 + (c - '0')`, reject early once `v > 22`, and finally require
`1 ≤ v ≤ 22`. -/
def wantedDigitLoop : List Nat → Nat → Bool
  | [], v => decide (1 ≤ v) && decide (v ≤ 22)
  | c :: cs, v =>
    if c < 48 || 57 < c then false
    else if 22 < v * 10 + (c - 48) then false
    else wantedDigitLoop cs (v * 10 + (c - 48))

/-- `is_wanted_chr_name`: `"chrX"`/`"chrY"`, or `"chr"` followed by a
nonempty digit string whose value is in `[1, 22]`. -/
def isWantedChrName (name : List Nat) : Bool :=
  if name = [99, 104, 114, 88] || name = [99, 104, 114, 89] then true
  else if name.length ≤ 3 then false
  else if name.take 3 ≠ [99, 104, 114] then false
  else if name.drop 3 = [] then false
  else wantedDigitLoop (name.drop 3) 0

/-- Retention step of `parse_fasta`: sequence records whose name passes
`is_wanted_chr_name` are kept (`keep_current`), all others dropped, and the
function fails iff no record was kept.  File reading and line assembly are
abstracted to the list of record names. -/
def parseFastaKeep (entries : List (List Nat)) : Except Unit (List (List Nat)) :=
  if (entries.filter (fun e => isWantedChrName e)).isEmpty then Except.error ()
  else Except.ok (entries.filter (fun e => isWantedChrName e))

/-- The value of a digit string read most-significant first. -/
def digitsVal (ds : List Nat) : Nat :=
  ds.foldl (fun v d => v * 10 + (d - 48)) 0

/-- The 24 canonical chromosome names `chr1..chr22, chrX, chrY`. -/
def canonicalChrNames : List (List Nat) :=
  (List.range 22).map (fun n => [99, 104, 114] ++ decimalBytes (n + 1)) ++
    [[99, 104, 114, 88], [99, 104, 114, 89]]

theorem digitFold_seed_le (ds : List Nat) :
    ∀ v : Nat, v ≤ ds.foldl (fun v d => v * 10 + (d - 48)) v := by
  induction ds with
  | nil => intro v; exact le_refl v
  | cons d ds ih =>
    intro v
    have h1 : v ≤ v * 10 + (d - 48) := by omega
    exact le_trans h1 (ih _)

theorem wantedDigitLoop_iff (ds : List Nat) :
    ∀ v : Nat, wantedDigitLoop ds v = true ↔
      (∀ d ∈ ds, 48 ≤ d ∧ d ≤ 57) ∧
      1 ≤ ds.foldl (fun v d => v * 10 + (d - 48)) v ∧
      ds.foldl (fun v d => v * 10 + (d - 48)) v ≤ 22 := by
  induction ds with
  | nil =>
    intro v
    rw [wantedDigitLoop]
    simp
  | cons c cs ih =>
    intro v
    rw [wantedDigitLoop]
    by_cases hdig : c < 48 || 57 < c
    · rw [if_pos hdig]
      simp only [Bool.or_eq_true, decide_eq_true_eq] at hdig
      simp only [Bool.false_eq_true, false_iff]
      intro ⟨hall, _⟩
      exact absurd (hall c (by simp)) (by omega)
    · rw [if_neg hdig]
      simp only [Bool.or_eq_true, decide_eq_true_eq, not_or, not_lt] at hdig
      by_cases hbig : 22 < v * 10 + (c - 48)
      · rw [if_pos hbig]
        simp only [Bool.false_eq_true, false_iff]
        intro ⟨_, _, hle⟩
        have := digitFold_seed_le cs (v * 10 + (c - 48))
        simp only [List.foldl_cons] at hle
        omega
      · rw [if_neg hbig]
        rw [ih (v * 10 + (c - 48))]
        simp only [List.foldl_cons, List.mem_cons]
        constructor
        · intro ⟨ha, hb⟩
          exact ⟨fun d hd => by
            rcases hd with rfl | hd
            · exact ⟨hdig.1, hdig.2⟩
            · exact ha d hd, hb⟩
        · intro ⟨ha, hb⟩
          exact ⟨fun d hd => ha d (Or.inr hd), hb⟩

/-- The literal claim is false: `is_wanted_chr_name` accepts `"chr01"`
(leading zeros), which is none of the canonical chromosome names, so the
retained set is not a fixed whitelist of canonical names (and the
canonical list has 24 members, not 23). -/
theorem whitelist_claim_counterexample :
    isWantedChrName [99, 104, 114, 48, 49] = true ∧
    [99, 104, 114, 48, 49] ∉ canonicalChrNames ∧
    canonicalChrNames.length = 24 := by decide

/-- C9 (amended): `is_wanted_chr_name` accepts exactly `"chrX"`, `"chrY"`,
and `"chr"` followed by a nonempty all-digit string (leading zeros allowed)
whose value is between 1 and 22; `parse_fasta` retains exactly the entries
accepted by it and fails with the empty-reference error iff no entry is
accepted. -/
theorem reference_whitelist_spec (entries : List (List Nat)) (name : List Nat) :
    (isWantedChrName name = true ↔
      name = [99, 104, 114, 88] ∨ name = [99, 104, 114, 89] ∨
      (name.take 3 = [99, 104, 114] ∧ name.drop 3 ≠ [] ∧
        (∀ d ∈ name.drop 3, 48 ≤ d ∧ d ≤ 57) ∧
        1 ≤ digitsVal (name.drop 3) ∧ digitsVal (name.drop 3) ≤ 22)) ∧
    (parseFastaKeep entries = Except.error () ↔
      ∀ e ∈ entries, isWantedChrName e = false) ∧
    (∀ kept, parseFastaKeep entries = Except.ok kept →
      kept = entries.filter (fun e => isWantedChrName e) ∧ kept ≠ []) := by
  refine ⟨?_, ?_, ?_⟩
  · unfold isWantedChrName
    by_cases hxy : name = [99, 104, 114, 88] || name = [99, 104, 114, 89]
    · rw [if_pos hxy]
      simp only [Bool.or_eq_true, decide_eq_true_eq] at hxy
      simp only [true_iff]
      rcases hxy with rfl | rfl
      · exact Or.inl rfl
      · exact Or.inr (Or.inl rfl)
    · rw [if_neg hxy]
      simp only [Bool.or_eq_true, decide_eq_true_eq, not_or] at hxy
      by_cases hlen : name.length ≤ 3
      · rw [if_pos hlen]
        simp only [Bool.false_eq_true, false_iff]
        intro h
        rcases h with rfl | rfl | ⟨_, hne, _⟩
        · exact hxy.1 rfl
        · exact hxy.2 rfl
        · refine hne ?_
          have := congrArg List.length (List.take_append_drop 3 name)
          have hld : (name.drop 3).length = 0 := by
            simp at this ⊢
            omega
          exact List.eq_nil_of_length_eq_zero hld
      · rw [if_neg hlen]
        push_neg at hlen
        by_cases htk : name.take 3 ≠ [99, 104, 114]
        · rw [if_pos htk]
          simp only [Bool.false_eq_true, false_iff]
          intro h
          rcases h with rfl | rfl | ⟨hh, _⟩
          · exact hxy.1 rfl
          · exact hxy.2 rfl
          · exact htk hh
        · rw [if_neg htk]
          push_neg at htk
          have hdrop : name.drop 3 ≠ [] := by
            intro h
            have := congrArg List.length h
            simp at this
            omega
          rw [if_neg hdrop]
          rw [wantedDigitLoop_iff]
          unfold digitsVal
          constructor
          · intro ⟨ha, hb, hc⟩
            exact Or.inr (Or.inr ⟨htk, hdrop, ha, hb, hc⟩)
          · intro h
            rcases h with rfl | rfl | ⟨_, _, ha, hb, hc⟩
            · exact absurd rfl hxy.1
            · exact absurd rfl hxy.2
            · exact ⟨ha, hb, hc⟩
  · unfold parseFastaKeep
    by_cases hemp : (entries.filter (fun e => isWantedChrName e)).isEmpty
    · rw [if_pos hemp]
      rw [List.isEmpty_iff, List.filter_eq_nil_iff] at hemp
      constructor
      · intro _ e he
        simpa using hemp e he
      · intro _
        rfl
    · rw [if_neg hemp]
      constructor
      · intro h
        exact absurd h (fun hh => Except.noConfusion hh)
      · intro hall
        rw [List.isEmpty_iff, List.filter_eq_nil_iff] at hemp
        exact absurd (fun e he => by simp [hall e he]) hemp
  · intro kept hk
    unfold parseFastaKeep at hk
    by_cases hemp : (entries.filter (fun e => isWantedChrName e)).isEmpty
    · rw [if_pos hemp] at hk
      exact absurd hk (fun hh => Except.noConfusion hh)
    · rw [if_neg hemp] at hk
      injection hk with h
      refine ⟨h.symm, ?_⟩
      intro hnil
      rw [h.trans hnil] at hemp
      exact hemp rfl

theorem reference_whitelist_spec_witness :
    ([[99, 104, 114, 49]] : List (List Nat)) =
      ([[99, 104, 114, 49], [102, 111, 111]] : List (List Nat)).filter
        (fun e => isWantedChrName e) ∧
    ([[99, 104, 114, 49]] : List (List Nat)) ≠ [] :=
  (reference_whitelist_spec [[99, 104, 114, 49], [102, 111, 111]]
    [99, 104, 114, 88]).2.2 [[99, 104, 114, 49]] rfl

/-! ## Dispatcher batch write-back (`process_batch`, `src/src/main.c`)

Each job of a batch reports an output length `out_size`; the write loop
validates it against the job's input size before writing the output file.
File-system operations (`fopen`/`fwrite`) are modelled as succeeding, so
only the validation logic is embedded. -/

/-- Per-job decision of the write loop: the output is written unless
`out_size > sizes[i] * 2` (sanity bound) or `out_size == 0`. -/
def jobWritten (szIn szOut : Nat) : Bool :=
  if szIn * 2 < szOut then false
  else if szOut = 0 then false
  else true

/-- The write loop of `process_batch` over the jobs of one batch, as
(input size, reported output size) pairs: per-job written flag plus the
`write_success` and `write_failed` counters.  An invalid `out_size` hits
`continue`, not an abort: the remaining jobs are still processed. -/
def writeBatchLoop : List (Nat × Nat) → List Bool × Nat × Nat
  | [] => ([], 0, 0)
  | (szIn, szOut) :: rest =>
    if szIn * 2 < szOut then
      (false :: (writeBatchLoop rest).1,
        (writeBatchLoop rest).2.1, (writeBatchLoop rest).2.2 + 1)
    else if szOut = 0 then
      (false :: (writeBatchLoop rest).1,
        (writeBatchLoop rest).2.1, (writeBatchLoop rest).2.2 + 1)
    else
      (true :: (writeBatchLoop rest).1,
        (writeBatchLoop rest).2.1 + 1, (writeBatchLoop rest).2.2)

theorem writeBatchLoop_flags (jobs : List (Nat × Nat)) :
    (writeBatchLoop jobs).1 = jobs.map (fun j => jobWritten j.1 j.2) := by
  induction jobs with
  | nil => rfl
  | cons j rest ih =>
    obtain ⟨szIn, szOut⟩ := j
    rw [writeBatchLoop]
    unfold jobWritten
    by_cases h1 : szIn * 2 < szOut
    · rw [if_pos h1]
      simp only [List.map_cons, if_pos h1]
      exact congrArg _ ih
    · rw [if_neg h1]
      by_cases h2 : szOut = 0
      · rw [if_pos h2]
        simp only [List.map_cons, if_neg h1, if_pos h2]
        exact congrArg _ ih
      · rw [if_neg h2]
        simp only [List.map_cons, if_neg h1, if_neg h2]
        exact congrArg _ ih

theorem writeBatchLoop_counts (jobs : List (Nat × Nat)) :
    (writeBatchLoop jobs).2.1 =
      (jobs.filter (fun j => jobWritten j.1 j.2)).length ∧
    (writeBatchLoop jobs).2.2 =
      (jobs.filter (fun j => ! jobWritten j.1 j.2)).length := by
  induction jobs with
  | nil => exact ⟨rfl, rfl⟩
  | cons j rest ih =>
    obtain ⟨szIn, szOut⟩ := j
    rw [writeBatchLoop]
    by_cases h1 : szIn * 2 < szOut
    · have hjw : jobWritten szIn szOut = false := by
        unfold jobWritten
        rw [if_pos h1]
      rw [if_pos h1]
      constructor
      · simp [List.filter_cons, hjw, ih.1]
      · simp [List.filter_cons, hjw, ih.2]
    · rw [if_neg h1]
      by_cases h2 : szOut = 0
      · have hjw : jobWritten szIn szOut = false := by
          unfold jobWritten
          rw [if_neg h1, if_pos h2]
        rw [if_pos h2]
        constructor
        · simp [List.filter_cons, hjw, ih.1]
        · simp [List.filter_cons, hjw, ih.2]
      · have hjw : jobWritten szIn szOut = true := by
          unfold jobWritten
          rw [if_neg h1, if_neg h2]
        rw [if_neg h2]
        constructor
        · simp [List.filter_cons, hjw, ih.1]
        · simp [List.filter_cons, hjw, ih.2]

/-- C10: after a batch is joined, the write loop decides each job on its
own: the flag sequence is the pointwise map of the per-job decision; a job
whose reported output exceeds twice its input gets `false` (its output is
not written) while every other job of the batch is still written according
to its own normal decision; the success/failed counters count the written
and unwritten jobs. -/
theorem batch_oversize_rejected (jobs : List (Nat × Nat)) :
    (writeBatchLoop jobs).1 = jobs.map (fun j => jobWritten j.1 j.2) ∧
    (∀ pre j post, jobs = pre ++ j :: post → j.1 * 2 < j.2 →
      (writeBatchLoop jobs).1 =
        pre.map (fun k => jobWritten k.1 k.2) ++ false ::
          post.map (fun k => jobWritten k.1 k.2)) ∧
    (writeBatchLoop jobs).2.1 =
      (jobs.filter (fun j => jobWritten j.1 j.2)).length ∧
    (writeBatchLoop jobs).2.2 =
      (jobs.filter (fun j => ! jobWritten j.1 j.2)).length := by
  refine ⟨writeBatchLoop_flags jobs, ?_, (writeBatchLoop_counts jobs).1,
    (writeBatchLoop_counts jobs).2⟩
  intro pre j post hsplit hover
  rw [writeBatchLoop_flags, hsplit]
  rw [List.map_append, List.map_cons]
  have : jobWritten j.1 j.2 = false := by
    unfold jobWritten
    rw [if_pos hover]
  rw [this]

theorem batch_oversize_rejected_witness :
    (writeBatchLoop [(10, 25), (10, 5)]).1 =
      ([] : List (Nat × Nat)).map (fun k => jobWritten k.1 k.2) ++ false ::
        ([(10, 5)] : List (Nat × Nat)).map (fun k => jobWritten k.1 k.2) :=
  (batch_oversize_rejected [(10, 25), (10, 5)]).2.1 [] (10, 25) [(10, 5)]
    rfl (by decide)

/-! ## Line sorting (`cmp_rname` / `cmp_line` / `quicksort_lineinfo`,
`src/slave/slave.c`)

A `LineInfo`'s `rname` pointer/length pair is modelled as the byte list it
designates; `memcmp`'s return value is modelled by its sign, which is all
the callers inspect. -/

structure LineInfo where
  start : Nat
  len : Nat
  rname : List Nat
  pos : Int
  valid : Bool
deriving DecidableEq, Repr

instance : Inhabited LineInfo := ⟨⟨0, 0, [], -1, false⟩⟩

/-- Default element for out-of-range array reads (never reached under the
bounds invariants proved below). -/
def li0 : LineInfo := ⟨0, 0, [], -1, false⟩

/-- Sign of `memcmp` over the common prefix of two byte lists (0 when one
list is a prefix of the other, as `cmp_rname` calls it with the minimum of
the two lengths). -/
def memcmpList : List Nat → List Nat → Int
  | [], _ => 0
  | _ :: _, [] => 0
  | a :: as, b :: bs => if a < b then -1 else if b < a then 1 else memcmpList as bs

/-- `cmp_rname` on the two byte lists: `memcmp` over the common length,
then the shorter name first. -/
def cmpRnameB (x y : List Nat) : Int :=
  if memcmpList x y ≠ 0 then memcmpList x y
  else if x.length < y.length then -1
  else if y.length < x.length then 1
  else 0

def cmpRname (a b : LineInfo) : Int := cmpRnameB a.rname b.rname

/-- `cmp_line`: invalid lines first, ordered by byte offset; then RNAME,
POS, and byte offset (`start`) as the final tiebreak. -/
def cmpLine (a b : LineInfo) : Int :=
  if !a.valid && !b.valid then
    if a.start < b.start then -1 else if b.start < a.start then 1 else 0
  else if !a.valid then -1
  else if !b.valid then 1
  else if cmpRname a b < 0 then -1
  else if 0 < cmpRname a b then 1
  else if a.pos < b.pos then -1
  else if b.pos < a.pos then 1
  else if a.start < b.start then -1
  else if b.start < a.start then 1
  else 0

theorem memcmpList_cases : ∀ x y : List Nat,
    memcmpList x y = -1 ∨ memcmpList x y = 0 ∨ memcmpList x y = 1 := by
  intro x
  induction x with
  | nil => intro y; rw [memcmpList]; exact Or.inr (Or.inl rfl)
  | cons a as ih =>
    intro y
    cases y with
    | nil => rw [memcmpList]; exact Or.inr (Or.inl rfl)
    | cons b bs =>
      rw [memcmpList]
      by_cases h1 : a < b
      · rw [if_pos h1]; exact Or.inl rfl
      · rw [if_neg h1]
        by_cases h2 : b < a
        · rw [if_pos h2]; exact Or.inr (Or.inr rfl)
        · rw [if_neg h2]; exact ih bs

theorem cmpRnameB_nil_nil : cmpRnameB [] [] = 0 := by
  simp [cmpRnameB, memcmpList]

theorem cmpRnameB_nil_cons (b : Nat) (bs : List Nat) :
    cmpRnameB [] (b :: bs) = -1 := by
  simp [cmpRnameB, memcmpList]

theorem cmpRnameB_cons_nil (a : Nat) (as : List Nat) :
    cmpRnameB (a :: as) [] = 1 := by
  simp [cmpRnameB, memcmpList]

theorem cmpRnameB_cons (a b : Nat) (as bs : List Nat) :
    cmpRnameB (a :: as) (b :: bs) =
      if a < b then -1 else if b < a then 1 else cmpRnameB as bs := by
  by_cases h1 : a < b
  · rw [if_pos h1]
    have hm : memcmpList (a :: as) (b :: bs) = -1 := by
      rw [memcmpList, if_pos h1]
    rw [cmpRnameB, hm]
    norm_num
  · rw [if_neg h1]
    by_cases h2 : b < a
    · rw [if_pos h2]
      have hm : memcmpList (a :: as) (b :: bs) = 1 := by
        rw [memcmpList, if_neg h1, if_pos h2]
      rw [cmpRnameB, hm]
      norm_num
    · rw [if_neg h2]
      have hm : memcmpList (a :: as) (b :: bs) = memcmpList as bs := by
        rw [memcmpList, if_neg h1, if_neg h2]
      rw [cmpRnameB, cmpRnameB, hm]
      simp only [List.length_cons]
      rcases memcmpList_cases as bs with h | h | h <;>
        · rw [h]
          norm_num

theorem cmpRnameB_cases (x y : List Nat) :
    cmpRnameB x y = -1 ∨ cmpRnameB x y = 0 ∨ cmpRnameB x y = 1 := by
  rw [cmpRnameB]
  rcases memcmpList_cases x y with h | h | h <;> rw [h] <;> split_ifs <;> omega

theorem cmpRnameB_flip : ∀ x y : List Nat, cmpRnameB y x = -cmpRnameB x y := by
  intro x
  induction x with
  | nil =>
    intro y
    cases y with
    | nil => rw [cmpRnameB_nil_nil]; rfl
    | cons b bs =>
      rw [cmpRnameB_cons_nil, cmpRnameB_nil_cons]
      norm_num
  | cons a as ih =>
    intro y
    cases y with
    | nil =>
      rw [cmpRnameB_nil_cons, cmpRnameB_cons_nil]
    | cons b bs =>
      rw [cmpRnameB_cons, cmpRnameB_cons, ih bs]
      by_cases h1 : a < b
      · simp only [if_pos h1, if_neg (show ¬ b < a by omega)]
        norm_num
      · by_cases h2 : b < a
        · simp only [if_neg h1, if_pos h2]
        · simp only [if_neg h1, if_neg h2]

theorem cmpRnameB_zero_iff : ∀ x y : List Nat, cmpRnameB x y = 0 ↔ x = y := by
  intro x
  induction x with
  | nil =>
    intro y
    cases y with
    | nil => simp [cmpRnameB_nil_nil]
    | cons b bs => simp [cmpRnameB_nil_cons]
  | cons a as ih =>
    intro y
    cases y with
    | nil => simp [cmpRnameB_cons_nil]
    | cons b bs =>
      rw [cmpRnameB_cons]
      by_cases h1 : a < b
      · rw [if_pos h1]
        simp only [List.cons.injEq]
        constructor
        · intro h; omega
        · intro ⟨h, _⟩; omega
      · by_cases h2 : b < a
        · rw [if_neg h1, if_pos h2]
          simp only [List.cons.injEq]
          constructor
          · intro h; omega
          · intro ⟨h, _⟩; omega
        · rw [if_neg h1, if_neg h2]
          have hab : a = b := by omega
          subst hab
          rw [ih bs]
          simp

theorem cmpRnameB_lt_trans :
    ∀ x y z : List Nat, cmpRnameB x y < 0 → cmpRnameB y z < 0 →
      cmpRnameB x z < 0 := by
  intro x
  induction x with
  | nil =>
    intro y z hxy hyz
    cases z with
    | nil =>
      cases y with
      | nil => rw [cmpRnameB_nil_nil] at hxy; omega
      | cons b bs => rw [cmpRnameB_cons_nil] at hyz; omega
    | cons c cs => rw [cmpRnameB_nil_cons]; omega
  | cons a as ih =>
    intro y z hxy hyz
    cases y with
    | nil => rw [cmpRnameB_cons_nil] at hxy; omega
    | cons b bs =>
      cases z with
      | nil => rw [cmpRnameB_cons_nil] at hyz; omega
      | cons c cs =>
        rw [cmpRnameB_cons] at hxy hyz ⊢
        by_cases h1 : a < b
        · have hbc : b ≤ c := by
            by_contra hbc
            rw [if_neg (by omega : ¬ b < c), if_pos (by omega : c < b)] at hyz
            omega
          rw [if_pos (by omega : a < c)]
          omega
        · by_cases h2 : b < a
          · rw [if_neg h1, if_pos h2] at hxy; omega
          · have hab : a = b := by omega
            subst hab
            rw [if_neg h1, if_neg h2] at hxy
            by_cases h3 : a < c
            · rw [if_pos h3]; omega
            · by_cases h4 : c < a
              · rw [if_neg (by omega : ¬ a < c), if_pos h4] at hyz
                omega
              · rw [if_neg h3, if_neg h4] at hyz ⊢
                exact ih bs cs hxy hyz

/-- Explicit lexicographic reading of `cmpLine ≤ 0`, used to prove
transitivity and the bridge to the specification's ordering. -/
def lineLe (a b : LineInfo) : Prop :=
  (a.valid = false ∧ b.valid = false ∧ a.start ≤ b.start) ∨
  (a.valid = false ∧ b.valid = true) ∨
  (a.valid = true ∧ b.valid = true ∧
    (cmpRnameB a.rname b.rname < 0 ∨
      (cmpRnameB a.rname b.rname = 0 ∧
        (a.pos < b.pos ∨ (a.pos = b.pos ∧ a.start ≤ b.start)))))

theorem cmpLine_le_iff (a b : LineInfo) : cmpLine a b ≤ 0 ↔ lineLe a b := by
  have hc := cmpRnameB_cases a.rname b.rname
  cases ha : a.valid <;> cases hb : b.valid <;>
    simp only [cmpLine, lineLe, cmpRname, ha, hb, Bool.not_true, Bool.not_false,
      Bool.and_self, Bool.and_true, Bool.true_and, Bool.and_false, Bool.false_and,
      if_true, if_false, Bool.false_eq_true, Bool.true_eq_false, and_false,
      false_and, and_true, true_and, false_or, or_false, eq_self_iff_true]
  · split_ifs <;> omega
  · norm_num
  · norm_num
  · split_ifs <;> omega

theorem cmpLine_refl (a : LineInfo) : cmpLine a a = 0 := by
  have h0 : cmpRnameB a.rname a.rname = 0 := (cmpRnameB_zero_iff _ _).mpr rfl
  cases ha : a.valid <;>
    simp only [cmpLine, cmpRname, ha, Bool.not_true, Bool.not_false,
      Bool.and_self, if_true, if_false] <;>
    split_ifs <;> omega

set_option maxHeartbeats 1000000 in
theorem cmpLine_zero_facts (a b : LineInfo) (h : cmpLine a b = 0) :
    a.valid = b.valid ∧ a.start = b.start ∧
    (a.valid = true → cmpRnameB a.rname b.rname = 0 ∧ a.pos = b.pos) := by
  cases ha : a.valid <;> cases hb : b.valid <;>
    rw [cmpLine] at h <;>
    simp only [ha, hb, Bool.not_true, Bool.not_false, Bool.and_self,
      Bool.and_true, Bool.true_and, Bool.and_false, Bool.false_and,
      Bool.false_eq_true, Bool.true_eq_false, if_true, if_false,
      cmpRname] at h
  · refine ⟨rfl, by split_ifs at h <;> omega, ?_⟩
    intro hv
    exact absurd hv (by simp)
  · exact absurd h (by norm_num)
  · exact absurd h (by norm_num)
  · split_ifs at h <;>
      exact ⟨rfl, by omega, fun _ => ⟨by omega, by omega⟩⟩

theorem lineLe_trans (a b c : LineInfo) (h1 : lineLe a b) (h2 : lineLe b c) :
    lineLe a c := by
  rcases h1 with ⟨ha, hb, hs⟩ | ⟨ha, hb⟩ | ⟨ha, hb, hr1⟩
  · rcases h2 with ⟨hb', hc, hs'⟩ | ⟨hb', hc⟩ | ⟨hb', hc, hr2⟩
    · exact Or.inl ⟨ha, hc, le_trans hs hs'⟩
    · exact Or.inr (Or.inl ⟨ha, hc⟩)
    · rw [hb] at hb'
      exact absurd hb' (by simp)
  · rcases h2 with ⟨hb', hc, hs'⟩ | ⟨hb', hc⟩ | ⟨hb', hc, hr2⟩
    · rw [hb] at hb'
      exact absurd hb' (by simp)
    · rw [hb] at hb'
      exact absurd hb' (by simp)
    · exact Or.inr (Or.inl ⟨ha, hc⟩)
  · rcases h2 with ⟨hb', hc, hs'⟩ | ⟨hb', hc⟩ | ⟨hb', hc, hr2⟩
    · rw [hb] at hb'
      exact absurd hb' (by simp)
    · rw [hb] at hb'
      exact absurd hb' (by simp)
    · refine Or.inr (Or.inr ⟨ha, hc, ?_⟩)
      rcases hr1 with hlt1 | ⟨heq1, hp1⟩
      · rcases hr2 with hlt2 | ⟨heq2, hp2⟩
        · exact Or.inl (cmpRnameB_lt_trans _ _ _ hlt1 hlt2)
        · rw [(cmpRnameB_zero_iff _ _).mp heq2] at hlt1
          exact Or.inl hlt1
      · rcases hr2 with hlt2 | ⟨heq2, hp2⟩
        · rw [← (cmpRnameB_zero_iff _ _).mp heq1] at hlt2
          exact Or.inl hlt2
        · refine Or.inr ⟨?_, ?_⟩
          · rw [(cmpRnameB_zero_iff _ _).mp heq2] at heq1
            exact heq1
          · rcases hp1 with hp1 | ⟨he1, hs1⟩ <;> rcases hp2 with hp2 | ⟨he2, hs2⟩
            · exact Or.inl (lt_trans hp1 hp2)
            · exact Or.inl (he2 ▸ hp1)
            · exact Or.inl (he1 ▸ hp2)
            · exact Or.inr ⟨he1.trans he2, le_trans hs1 hs2⟩

theorem lineLe_total (a b : LineInfo) : lineLe a b ∨ lineLe b a := by
  unfold lineLe
  cases ha : a.valid <;> cases hb : b.valid
  · rcases le_total a.start b.start with h | h
    · exact Or.inl (Or.inl ⟨rfl, rfl, h⟩)
    · exact Or.inr (Or.inl ⟨rfl, rfl, h⟩)
  · exact Or.inl (Or.inr (Or.inl ⟨rfl, rfl⟩))
  · exact Or.inr (Or.inr (Or.inl ⟨rfl, rfl⟩))
  · rcases cmpRnameB_cases a.rname b.rname with hr | hr | hr
    · exact Or.inl (Or.inr (Or.inr ⟨rfl, rfl, Or.inl (by omega)⟩))
    · have hr0 : cmpRnameB b.rname a.rname = 0 := by
        rw [(cmpRnameB_zero_iff _ _).mp hr]
        exact (cmpRnameB_zero_iff _ _).mpr rfl
      rcases lt_trichotomy a.pos b.pos with hp | hp | hp
      · exact Or.inl (Or.inr (Or.inr ⟨rfl, rfl, Or.inr ⟨hr, Or.inl hp⟩⟩))
      · rcases le_total a.start b.start with hs | hs
        · exact Or.inl (Or.inr (Or.inr ⟨rfl, rfl, Or.inr ⟨hr, Or.inr ⟨hp, hs⟩⟩⟩))
        · exact Or.inr (Or.inr (Or.inr ⟨rfl, rfl, Or.inr ⟨hr0, Or.inr ⟨hp.symm, hs⟩⟩⟩))
      · exact Or.inr (Or.inr (Or.inr ⟨rfl, rfl, Or.inr ⟨hr0, Or.inl hp⟩⟩))
    · have hr' : cmpRnameB b.rname a.rname < 0 := by
        have := cmpRnameB_flip a.rname b.rname
        omega
      exact Or.inr (Or.inr (Or.inr ⟨rfl, rfl, Or.inl hr'⟩))

theorem cmpLine_le_trans (a b c : LineInfo) (h1 : cmpLine a b ≤ 0)
    (h2 : cmpLine b c ≤ 0) : cmpLine a c ≤ 0 := by
  rw [cmpLine_le_iff] at h1 h2 ⊢
  exact lineLe_trans a b c h1 h2

theorem cmpLine_le_total (a b : LineInfo) :
    cmpLine a b ≤ 0 ∨ cmpLine b a ≤ 0 := by
  rw [cmpLine_le_iff, cmpLine_le_iff]
  exact lineLe_total a b

theorem lineLe_of_zero (a b : LineInfo) (h : cmpLine a b = 0) : lineLe b a := by
  obtain ⟨hv, hs, hval⟩ := cmpLine_zero_facts a b h
  unfold lineLe
  cases ha : a.valid
  · rw [ha] at hv
    exact Or.inl ⟨hv.symm, rfl, by omega⟩
  · rw [ha] at hv
    obtain ⟨hr, hp⟩ := hval ha
    refine Or.inr (Or.inr ⟨hv.symm, rfl, Or.inr ⟨?_, Or.inr ⟨hp.symm, by omega⟩⟩⟩)
    rw [← (cmpRnameB_zero_iff _ _).mp hr]
    exact (cmpRnameB_zero_iff _ _).mpr rfl

theorem cmpLine_le_of_between (v1 p v2 : LineInfo) (h1 : cmpLine v1 p ≤ 0)
    (h2 : 0 ≤ cmpLine v2 p) : cmpLine v1 v2 ≤ 0 := by
  rcases cmpLine_le_total p v2 with h | h
  · exact cmpLine_le_trans v1 p v2 h1 h
  · have hz : cmpLine v2 p = 0 := le_antisymm (by omega) h2
    have : lineLe p v2 := lineLe_of_zero v2 p hz
    exact cmpLine_le_trans v1 p v2 h1 ((cmpLine_le_iff p v2).mpr this)

theorem cmpLine_le_antisymm_start (a b : LineInfo) (h1 : cmpLine a b ≤ 0)
    (h2 : cmpLine b a ≤ 0) : a.start = b.start := by
  rw [cmpLine_le_iff] at h1 h2
  rcases h1 with ⟨ha, hb, hs⟩ | ⟨ha, hb⟩ | ⟨ha, hb, hr1⟩ <;>
    rcases h2 with ⟨hb', ha', hs'⟩ | ⟨hb', ha'⟩ | ⟨hb', ha', hr2⟩
  · omega
  · rw [ha] at ha'
    exact absurd ha' (by simp)
  · rw [hb] at hb'
    exact absurd hb' (by simp)
  · rw [hb] at hb'
    exact absurd hb' (by simp)
  · rw [hb] at hb'
    exact absurd hb' (by simp)
  · rw [ha] at ha'
    exact absurd ha' (by simp)
  · rw [hb'] at hb
    exact absurd hb (by simp)
  · rw [hb] at hb'
    exact absurd hb' (by simp)
  · have hf := cmpRnameB_flip a.rname b.rname
    rcases hr1 with hlt1 | ⟨heq1, hp1⟩ <;> rcases hr2 with hlt2 | ⟨heq2, hp2⟩
    · omega
    · omega
    · omega
    · rcases hp1 with hp1 | ⟨he1, hs1⟩ <;> rcases hp2 with hp2 | ⟨he2, hs2⟩ <;> omega

/-- The specification's order on parsed lines: lines that failed to parse
come first, ordered by byte offset; valid lines are ordered by RNAME
(lexicographically), then position, with the original byte offset as the
final tiebreaker. -/
def specLE (a b : LineInfo) : Prop :=
  if a.valid = false ∧ b.valid = false then a.start ≤ b.start
  else if a.valid = false then True
  else if b.valid = false then False
  else List.Lex (· < ·) a.rname b.rname ∨
    (a.rname = b.rname ∧ (a.pos < b.pos ∨ (a.pos = b.pos ∧ a.start ≤ b.start)))

theorem cmpRnameB_neg_iff_lex :
    ∀ x y : List Nat, cmpRnameB x y < 0 ↔ List.Lex (· < ·) x y := by
  intro x
  induction x with
  | nil =>
    intro y
    cases y with
    | nil =>
      rw [cmpRnameB_nil_nil]
      simp
    | cons b bs =>
      rw [cmpRnameB_nil_cons]
      exact iff_of_true (by omega) List.Lex.nil
  | cons a as ih =>
    intro y
    cases y with
    | nil =>
      rw [cmpRnameB_cons_nil]
      simp
    | cons b bs =>
      rw [cmpRnameB_cons]
      by_cases h1 : a < b
      · rw [if_pos h1]
        exact iff_of_true (by omega) (List.Lex.rel h1)
      · by_cases h2 : b < a
        · rw [if_neg h1, if_pos h2]
          constructor
          · intro h; omega
          · intro h
            cases h with
            | cons h => omega
            | rel h => omega
        · have hab : a = b := by omega
          subst hab
          rw [if_neg h1, if_neg h2, ih bs]
          exact List.Lex.cons_iff.symm

theorem cmpLine_le_iff_specLE (a b : LineInfo) :
    cmpLine a b ≤ 0 ↔ specLE a b := by
  rw [cmpLine_le_iff]
  unfold lineLe specLE
  cases ha : a.valid <;> cases hb : b.valid <;> simp
  rw [cmpRnameB_neg_iff_lex, cmpRnameB_zero_iff]

/-- Two sorted permutations of the same list are equal, given antisymmetry
on the list's members. -/
theorem sorted_perm_unique {α : Type} (r : α → α → Prop) :
    ∀ (l1 l2 : List α), l1.Perm l2 → l1.Pairwise r → l2.Pairwise r →
      (∀ a ∈ l1, ∀ b ∈ l1, r a b → r b a → a = b) → l1 = l2 := by
  intro l1
  induction l1 with
  | nil =>
    intro l2 hp _ _ _
    exact List.Perm.nil_eq hp
  | cons a t1 ih =>
    intro l2 hp hs1 hs2 hanti
    cases l2 with
    | nil => exact absurd hp.symm (by simp)
    | cons b t2 =>
      have hab : a = b := by
        by_cases hab : a = b
        · exact hab
        · have hain : a ∈ b :: t2 := hp.mem_iff.mp (by simp)
          have hat2 : a ∈ t2 := by
            rcases List.mem_cons.1 hain with h | h
            · exact absurd h hab
            · exact h
          have hbin : b ∈ a :: t1 := hp.mem_iff.mpr (by simp)
          have hbt1 : b ∈ t1 := by
            rcases List.mem_cons.1 hbin with h | h
            · exact absurd h.symm hab
            · exact h
          have hrab : r a b := (List.pairwise_cons.1 hs1).1 b hbt1
          have hrba : r b a := (List.pairwise_cons.1 hs2).1 a hat2
          exact hanti a (by simp) b (by simp [hbt1]) hrab hrba
      subst hab
      have hpt : t1.Perm t2 := hp.cons_inv
      have ht : t1 = t2 :=
        ih t2 hpt (List.pairwise_cons.1 hs1).2 (List.pairwise_cons.1 hs2).2
          (fun x hx y hy hxy hyx =>
            hanti x (List.mem_cons_of_mem _ hx) y (List.mem_cons_of_mem _ hy) hxy hyx)
      rw [ht]

/-- In-place swap `tmp = arr[i]; arr[i] = arr[j]; arr[j] = tmp`. -/
def aswap (l : List LineInfo) (i j : Nat) : List LineInfo :=
  (l.set i (l.getD j li0)).set j (l.getD i li0)

theorem aswap_length (l : List LineInfo) (i j : Nat) :
    (aswap l i j).length = l.length := by
  unfold aswap
  simp

theorem aswap_getD_fst (l : List LineInfo) (i j : Nat) (hi : i < l.length)
    (hj : j < l.length) : (aswap l i j).getD i li0 = l.getD j li0 := by
  unfold aswap
  by_cases hij : j = i
  · subst hij
    simp [List.getD, List.getElem?_set_self, hj]
  · rw [show ((l.set i (l.getD j li0)).set j (l.getD i li0)).getD i li0 =
        (l.set i (l.getD j li0)).getD i li0 by
      simp [List.getD, List.getElem?_set_ne hij]]
    simp [List.getD, List.getElem?_set_self, hi]

theorem aswap_getD_snd (l : List LineInfo) (i j : Nat) (hi : i < l.length)
    (hj : j < l.length) : (aswap l i j).getD j li0 = l.getD i li0 := by
  unfold aswap
  simp [List.getD, List.getElem?_set_self, hj]

theorem aswap_getD_other (l : List LineInfo) (i j m : Nat) (hmi : m ≠ i)
    (hmj : m ≠ j) : (aswap l i j).getD m li0 = l.getD m li0 := by
  unfold aswap
  simp [List.getD, List.getElem?_set_ne (Ne.symm hmi), List.getElem?_set_ne (Ne.symm hmj)]

theorem set_getD_cons_perm (a : LineInfo) :
    ∀ (t : List LineInfo) (m : Nat), m < t.length →
      (t.getD m li0 :: t.set m a).Perm (a :: t) := by
  intro t
  induction t with
  | nil => intro m hm; simp at hm
  | cons b t ih =>
    intro m hm
    cases m with
    | zero =>
      simp only [List.getD_cons_zero, List.set_cons_zero]
      exact List.Perm.swap a b t
    | succ k =>
      simp only [List.getD_cons_succ, List.set_cons_succ]
      have h1 : (t.getD k li0 :: b :: t.set k a).Perm (b :: t.getD k li0 :: t.set k a) :=
        List.Perm.swap b (t.getD k li0) (t.set k a)
      have h2 : (t.getD k li0 :: t.set k a).Perm (a :: t) := ih k (by simpa using hm)
      have h3 : (b :: t.getD k li0 :: t.set k a).Perm (b :: a :: t) := h2.cons b
      have h4 : (b :: a :: t).Perm (a :: b :: t) := List.Perm.swap a b t
      exact ((h1.trans h3).trans h4)

theorem aswap_perm : ∀ (l : List LineInfo) (i j : Nat), i < l.length →
    j < l.length → (aswap l i j).Perm l := by
  intro l
  induction l with
  | nil => intro i j hi _; simp at hi
  | cons a t ih =>
    intro i j hi hj
    unfold aswap
    cases i with
    | zero =>
      cases j with
      | zero => simp
      | succ k =>
        simp only [List.getD_cons_zero, List.getD_cons_succ, List.set_cons_zero,
          List.set_cons_succ]
        exact set_getD_cons_perm a t k (by simpa using hj)
    | succ ki =>
      cases j with
      | zero =>
        simp only [List.getD_cons_zero, List.getD_cons_succ, List.set_cons_zero,
          List.set_cons_succ]
        exact set_getD_cons_perm a t ki (by simpa using hi)
      | succ kj =>
        simp only [List.getD_cons_succ, List.set_cons_succ]
        exact (ih ki kj (by simpa using hi) (by simpa using hj)).cons a

/-- `while (cmp_line(&arr[i], &pivot) < 0) ++i;` (fuelled; the invariants
below supply a stopping index within the fuel). -/
def scanI (l : List LineInfo) (p : LineInfo) : Nat → Nat → Nat
  | 0, i => i
  | f + 1, i =>
    if cmpLine (l.getD i li0) p < 0 then scanI l p f (i + 1) else i

/-- `while (cmp_line(&arr[j], &pivot) > 0) --j;` (fuelled). -/
def scanJ (l : List LineInfo) (p : LineInfo) : Nat → Int → Int
  | 0, j => j
  | f + 1, j =>
    if 0 < cmpLine (l.getD j.toNat li0) p then scanJ l p f (j - 1) else j

theorem scanI_spec (l : List LineInfo) (p : LineInfo) :
    ∀ (f i k : Nat), i ≤ k → k - i ≤ f →
      ¬(cmpLine (l.getD k li0) p < 0) →
      i ≤ scanI l p f i ∧ scanI l p f i ≤ k ∧
        ¬(cmpLine (l.getD (scanI l p f i) li0) p < 0) ∧
        (∀ m : Nat, i ≤ m → m < scanI l p f i → cmpLine (l.getD m li0) p < 0) := by
  intro f
  induction f with
  | zero =>
    intro i k hik hf hk
    have : k = i := by omega
    subst this
    rw [scanI]
    exact ⟨le_refl _, le_refl _, hk, fun m h1 h2 => absurd h1 (by omega)⟩
  | succ f ih =>
    intro i k hik hf hk
    rw [scanI]
    by_cases hc : cmpLine (l.getD i li0) p < 0
    · rw [if_pos hc]
      have hne : i ≠ k := by
        intro h
        rw [h] at hc
        exact hk hc
      obtain ⟨c1, c2, c3, c4⟩ := ih (i + 1) k (by omega) (by omega) hk
      refine ⟨by omega, c2, c3, ?_⟩
      intro m h1 h2
      by_cases hmi : m = i
      · subst hmi; exact hc
      · exact c4 m (by omega) h2
    · rw [if_neg hc]
      exact ⟨le_refl _, hik, hc, fun m h1 h2 => absurd h1 (by omega)⟩

theorem scanJ_spec (l : List LineInfo) (p : LineInfo) :
    ∀ (f : Nat) (j : Int) (k : Nat), (k : Int) ≤ j → (j - k).toNat ≤ f →
      ¬(0 < cmpLine (l.getD k li0) p) →
      (k : Int) ≤ scanJ l p f j ∧ scanJ l p f j ≤ j ∧
        ¬(0 < cmpLine (l.getD (scanJ l p f j).toNat li0) p) ∧
        (∀ m : Nat, scanJ l p f j < (m : Int) → (m : Int) ≤ j →
          0 < cmpLine (l.getD m li0) p) := by
  intro f
  induction f with
  | zero =>
    intro j k hjk hf hk
    have : j = (k : Int) := by omega
    subst this
    rw [scanJ]
    refine ⟨le_refl _, le_refl _, ?_, fun m h1 h2 => absurd h1 (by omega)⟩
    rw [Int.toNat_natCast]
    exact hk
  | succ f ih =>
    intro j k hjk hf hk
    rw [scanJ]
    by_cases hc : 0 < cmpLine (l.getD j.toNat li0) p
    · rw [if_pos hc]
      have hne : j ≠ (k : Int) := by
        intro h
        rw [h, Int.toNat_natCast] at hc
        exact hk hc
      obtain ⟨c1, c2, c3, c4⟩ := ih (j - 1) k (by omega) (by omega) hk
      refine ⟨c1, by omega, c3, ?_⟩
      intro m h1 h2
      by_cases hmj : (m : Int) = j
      · have : m = j.toNat := by omega
        subst this
        exact hc
      · exact c4 m (by omega) (by omega)
    · rw [if_neg hc]
      exact ⟨hjk, le_refl _, hc, fun m h1 h2 => absurd h1 (by omega)⟩

/-- The partition loop of `quicksort_lineinfo`: advance `i` over entries
below the pivot, retreat `j` over entries above it, swap and step both
when `i <= j`, until `i > j`.  Returns the array and the final `i`, `j`. -/
def partLoop (p : LineInfo) : Nat → List LineInfo → Nat → Int → List LineInfo × Nat × Int
  | 0, l, i, j => (l, i, j)
  | f + 1, l, i, j =>
    if (i : Int) ≤ j then
      if (scanI l p l.length i : Int) ≤ scanJ l p l.length j then
        partLoop p f
          (aswap l (scanI l p l.length i) (scanJ l p l.length j).toNat)
          (scanI l p l.length i + 1) (scanJ l p l.length j - 1)
      else (l, scanI l p l.length i, scanJ l p l.length j)
    else (l, i, j)

theorem partLoop_spec (p : LineInfo) (left : Nat) (right : Int) :
    ∀ (fuel : Nat) (l : List LineInfo) (i : Nat) (j : Int),
      left ≤ i → j ≤ right → right < (l.length : Int) →
      (∀ m : Nat, left ≤ m → m < i → cmpLine (l.getD m li0) p ≤ 0) →
      (∀ m : Nat, j < (m : Int) → (m : Int) ≤ right → 0 ≤ cmpLine (l.getD m li0) p) →
      ((i : Int) ≤ j →
        (∃ k : Nat, i ≤ k ∧ (k : Int) ≤ right ∧ 0 ≤ cmpLine (l.getD k li0) p) ∧
        (∃ k : Nat, left ≤ k ∧ (k : Int) ≤ j ∧ cmpLine (l.getD k li0) p ≤ 0)) →
      (j - i + 4).toNat ≤ 2 * fuel →
      (partLoop p fuel l i j).1.length = l.length ∧
      (partLoop p fuel l i j).1.Perm l ∧
      (∀ m : Nat, (m < left ∨ right < (m : Int)) →
        (partLoop p fuel l i j).1.getD m li0 = l.getD m li0) ∧
      (∀ Q : LineInfo → Prop,
        (∀ m : Nat, left ≤ m → (m : Int) ≤ right → Q (l.getD m li0)) →
        ∀ m : Nat, left ≤ m → (m : Int) ≤ right →
          Q ((partLoop p fuel l i j).1.getD m li0)) ∧
      i ≤ (partLoop p fuel l i j).2.1 ∧
      (partLoop p fuel l i j).2.2 ≤ j ∧
      (partLoop p fuel l i j).2.2 < ((partLoop p fuel l i j).2.1 : Int) ∧
      (∀ m : Nat, left ≤ m → m < (partLoop p fuel l i j).2.1 →
        cmpLine ((partLoop p fuel l i j).1.getD m li0) p ≤ 0) ∧
      (∀ m : Nat, (partLoop p fuel l i j).2.2 < (m : Int) → (m : Int) ≤ right →
        0 ≤ cmpLine ((partLoop p fuel l i j).1.getD m li0) p) ∧
      ((∃ k : Nat, i ≤ k ∧ (k : Int) ≤ j ∧ cmpLine (l.getD k li0) p = 0) →
        i + 1 ≤ (partLoop p fuel l i j).2.1 ∧ (partLoop p fuel l i j).2.2 ≤ j - 1) := by
  intro fuel
  induction fuel with
  | zero =>
    intro l i j h1 h2 h3 hI2 hI3 hstop hfuel
    rw [partLoop]
    refine ⟨rfl, List.Perm.refl _, fun m _ => rfl, fun Q hq m hm1 hm2 => hq m hm1 hm2,
      le_refl _, le_refl _, (by omega : j < (i : Int)), hI2, hI3, ?_⟩
    intro ⟨k, hk1, hk2, _⟩
    omega
  | succ f ih =>
    intro l i j h1 h2 h3 hI2 hI3 hstop hfuel
    rw [partLoop]
    by_cases hij : (i : Int) ≤ j
    · rw [if_pos hij]
      obtain ⟨⟨k1, hk1i, hk1r, hk1c⟩, ⟨k2, hk2l, hk2j, hk2c⟩⟩ := hstop hij
      obtain ⟨si1, si2, si3, si4⟩ :=
        scanI_spec l p l.length i k1 hk1i (by omega) (by omega)
      obtain ⟨sj1, sj2, sj3, sj4⟩ :=
        scanJ_spec l p l.length j k2 hk2j (by omega) (by omega)
      set i1 := scanI l p l.length i with hi1def
      set j1 := scanJ l p l.length j with hj1def
      have hj1nn : 0 ≤ j1 := le_trans (by omega) sj1
      have hi1len : i1 < l.length := by omega
      have hj1len : j1.toNat < l.length := by omega
      have hj1cast : ((j1.toNat : Nat) : Int) = j1 := Int.toNat_of_nonneg hj1nn
      by_cases hsw : (i1 : Int) ≤ j1
      · rw [if_pos hsw]
        have hI2' : ∀ m : Nat, left ≤ m → m < i1 + 1 →
            cmpLine ((aswap l i1 j1.toNat).getD m li0) p ≤ 0 := by
          intro m hm1 hm2
          by_cases hmi : m = i1
          · subst hmi
            rw [aswap_getD_fst l i1 j1.toNat hi1len hj1len]
            omega
          · rw [aswap_getD_other l i1 j1.toNat m hmi (by omega)]
            by_cases hmlt : m < i
            · exact hI2 m hm1 hmlt
            · have := si4 m (by omega) (by omega)
              omega
        have hI3' : ∀ m : Nat, j1 - 1 < (m : Int) → (m : Int) ≤ right →
            0 ≤ cmpLine ((aswap l i1 j1.toNat).getD m li0) p := by
          intro m hm1 hm2
          by_cases hmj : m = j1.toNat
          · subst hmj
            rw [aswap_getD_snd l i1 j1.toNat hi1len hj1len]
            omega
          · rw [aswap_getD_other l i1 j1.toNat m (by omega) hmj]
            by_cases hmle : (m : Int) ≤ j
            · have := sj4 m (by omega) hmle
              omega
            · exact hI3 m (by omega) hm2
        have hstop' : ((i1 + 1 : Nat) : Int) ≤ j1 - 1 →
            (∃ k : Nat, i1 + 1 ≤ k ∧ (k : Int) ≤ right ∧
              0 ≤ cmpLine ((aswap l i1 j1.toNat).getD k li0) p) ∧
            (∃ k : Nat, left ≤ k ∧ (k : Int) ≤ j1 - 1 ∧
              cmpLine ((aswap l i1 j1.toNat).getD k li0) p ≤ 0) := by
          intro hlt
          constructor
          · refine ⟨j1.toNat, by omega, by omega, ?_⟩
            rw [aswap_getD_snd l i1 j1.toNat hi1len hj1len]
            omega
          · refine ⟨i1, by omega, by omega, ?_⟩
            rw [aswap_getD_fst l i1 j1.toNat hi1len hj1len]
            omega
        obtain ⟨c1, c2, c3, c4, c5, c6, c7, c8, c9, _⟩ :=
          ih (aswap l i1 j1.toNat) (i1 + 1) (j1 - 1) (by omega) (by omega)
            (by rw [aswap_length]; exact h3) hI2' hI3' hstop' (by omega)
        refine ⟨?_, ?_, ?_, ?_, by omega, by omega, c7, c8, c9, ?_⟩
        · rw [c1, aswap_length]
        · exact c2.trans (aswap_perm l i1 j1.toNat hi1len hj1len)
        · intro m hm
          rw [c3 m hm, aswap_getD_other l i1 j1.toNat m (by omega) (by omega)]
        · intro Q hq m hm1 hm2
          refine c4 Q ?_ m hm1 hm2
          intro m2 hm21 hm22
          by_cases hmi : m2 = i1
          · subst hmi
            rw [aswap_getD_fst l i1 j1.toNat hi1len hj1len]
            exact hq j1.toNat (by omega) (by omega)
          · by_cases hmj : m2 = j1.toNat
            · subst hmj
              rw [aswap_getD_snd l i1 j1.toNat hi1len hj1len]
              exact hq i1 (by omega) (by omega)
            · rw [aswap_getD_other l i1 j1.toNat m2 hmi hmj]
              exact hq m2 hm21 hm22
        · intro _
          exact ⟨by omega, by omega⟩
      · rw [if_neg hsw]
        refine ⟨rfl, List.Perm.refl _, fun m _ => rfl,
          fun Q hq m hm1 hm2 => hq m hm1 hm2, si1, sj2,
          (by omega : j1 < (i1 : Int)), ?_, ?_, ?_⟩
        · intro m hm1 hm2
          have hm2' : m < i1 := hm2
          show cmpLine (l.getD m li0) p ≤ 0
          by_cases hmlt : m < i
          · exact hI2 m hm1 hmlt
          · have := si4 m (by omega) hm2'
            omega
        · intro m hm1 hm2
          have hm1' : j1 < (m : Int) := hm1
          show 0 ≤ cmpLine (l.getD m li0) p
          by_cases hmle : (m : Int) ≤ j
          · have := sj4 m hm1' hmle
            omega
          · exact hI3 m (by omega) hm2
        · intro ⟨k0, hk01, hk02, hk03⟩
          exfalso
          have hk0ge : i1 ≤ k0 := by
            by_contra hlt
            have := si4 k0 hk01 (by omega)
            omega
          have hk0le : (k0 : Int) ≤ j1 := by
            by_contra hgt
            have := sj4 k0 (by omega) hk02
            omega
          omega
    · rw [if_neg hij]
      refine ⟨rfl, List.Perm.refl _, fun m _ => rfl,
        fun Q hq m hm1 hm2 => hq m hm1 hm2, le_refl _, le_refl _,
        (by omega : j < (i : Int)), hI2, hI3, ?_⟩
      intro ⟨k, hk1, hk2, _⟩
      omega

/-- `arr[n]` for an `Int` index (all reads are under `0 ≤ n` bounds in the
proofs). -/
def aget (l : List LineInfo) (n : Int) : LineInfo :=
  if 0 ≤ n then l.getD n.toNat li0 else li0

/-- `quicksort_lineinfo`'s recursion: partition around `arr[(left+right)/2]`,
then sort `[left, j]` and `[i, right]` under the guards `left < j` and
`i < right`.  The partition result is written out by projection several
times; `partLoop` is pure, so this equals computing it once. -/
def qsortGo : Nat → List LineInfo → Nat → Int → List LineInfo
  | 0, l, _, _ => l
  | f + 1, l, left, right =>
    if ((partLoop (aget l (((left : Int) + right) / 2)) (l.length + 2) l left right).2.1 : Int) < right then
      qsortGo f
        (if (left : Int) < (partLoop (aget l (((left : Int) + right) / 2)) (l.length + 2) l left right).2.2 then
           qsortGo f (partLoop (aget l (((left : Int) + right) / 2)) (l.length + 2) l left right).1
             left (partLoop (aget l (((left : Int) + right) / 2)) (l.length + 2) l left right).2.2
         else (partLoop (aget l (((left : Int) + right) / 2)) (l.length + 2) l left right).1)
        (partLoop (aget l (((left : Int) + right) / 2)) (l.length + 2) l left right).2.1 right
    else
      if (left : Int) < (partLoop (aget l (((left : Int) + right) / 2)) (l.length + 2) l left right).2.2 then
        qsortGo f (partLoop (aget l (((left : Int) + right) / 2)) (l.length + 2) l left right).1
          left (partLoop (aget l (((left : Int) + right) / 2)) (l.length + 2) l left right).2.2
      else (partLoop (aget l (((left : Int) + right) / 2)) (l.length + 2) l left right).1

/-- The sort entry point: `quicksort_lineinfo(lines, 0, n_lines - 1)` under
its call-site guard `n_lines > 1`. -/
def quicksortLineinfo (l : List LineInfo) : List LineInfo :=
  if l.length ≤ 1 then l else qsortGo l.length l 0 ((l.length : Int) - 1)

theorem qsortGo_spec :
    ∀ (fuel : Nat) (l : List LineInfo) (left : Nat) (right : Int),
      (left : Int) ≤ right → right < (l.length : Int) →
      (right + 1 - left).toNat ≤ fuel →
      (qsortGo fuel l left right).length = l.length ∧
      (qsortGo fuel l left right).Perm l ∧
      (∀ m : Nat, ((m : Int) < left ∨ right < m) →
        (qsortGo fuel l left right).getD m li0 = l.getD m li0) ∧
      (∀ Q : LineInfo → Prop,
        (∀ m : Nat, left ≤ m → (m : Int) ≤ right → Q (l.getD m li0)) →
        ∀ m : Nat, left ≤ m → (m : Int) ≤ right →
          Q ((qsortGo fuel l left right).getD m li0)) ∧
      (∀ m1 m2 : Nat, left ≤ m1 → m1 ≤ m2 → (m2 : Int) ≤ right →
        cmpLine ((qsortGo fuel l left right).getD m1 li0)
          ((qsortGo fuel l left right).getD m2 li0) ≤ 0) := by
  intro fuel
  induction fuel with
  | zero =>
    intro l left right hlr hrn hfuel
    exact absurd hfuel (by omega)
  | succ f ih =>
    intro l left right hlr hrn hfuel
    have hpnn : 0 ≤ ((left : Int) + right) / 2 := by omega
    have hple : ((left : Int) + right) / 2 ≤ right := by omega
    have hpge : (left : Int) ≤ ((left : Int) + right) / 2 := by omega
    have hpcast : (((((left : Int) + right) / 2).toNat : Nat) : Int) =
        ((left : Int) + right) / 2 := Int.toNat_of_nonneg hpnn
    have hplen : ((((left : Int) + right) / 2).toNat : Nat) < l.length := by omega
    have hpv : aget l (((left : Int) + right) / 2) =
        l.getD (((left : Int) + right) / 2).toNat li0 := if_pos hpnn
    have hzero : cmpLine (l.getD (((left : Int) + right) / 2).toNat li0)
        (aget l (((left : Int) + right) / 2)) = 0 := by
      rw [hpv]
      exact cmpLine_refl _
    obtain ⟨pc1, pc2, pc3, pc4, pc5, pc6, pc7, pc8, pc9, pc10⟩ :=
      partLoop_spec (aget l (((left : Int) + right) / 2)) left right
        (l.length + 2) l left right (le_refl _) (le_refl _) hrn
        (fun m hm1 hm2 => absurd hm2 (by omega))
        (fun m hm1 hm2 => absurd hm1 (by omega))
        (fun _ => ⟨⟨(((left : Int) + right) / 2).toNat, by omega, by omega, by omega⟩,
          ⟨(((left : Int) + right) / 2).toNat, by omega, by omega, by omega⟩⟩)
        (by omega)
    have hprog := pc10 ⟨(((left : Int) + right) / 2).toNat, by omega, by omega, hzero⟩
    rw [qsortGo]
    set PL := partLoop (aget l (((left : Int) + right) / 2)) (l.length + 2) l left right with hPL
    set nl := PL.1 with hnl
    set ni := PL.2.1 with hni
    set nj := PL.2.2 with hnj
    set p := aget l (((left : Int) + right) / 2) with hp
    have hnlen : nl.length = l.length := pc1
    have hijlt : nj < (ni : Int) := pc7
    have hprog1 : left + 1 ≤ ni := hprog.1
    have hprog2 : nj ≤ right - 1 := hprog.2
    have ihA : (left : Int) < nj →
        (qsortGo f nl left nj).length = nl.length ∧
        (qsortGo f nl left nj).Perm nl ∧
        (∀ m : Nat, ((m : Int) < left ∨ nj < m) →
          (qsortGo f nl left nj).getD m li0 = nl.getD m li0) ∧
        (∀ Q : LineInfo → Prop,
          (∀ m : Nat, left ≤ m → (m : Int) ≤ nj → Q (nl.getD m li0)) →
          ∀ m : Nat, left ≤ m → (m : Int) ≤ nj →
            Q ((qsortGo f nl left nj).getD m li0)) ∧
        (∀ m1 m2 : Nat, left ≤ m1 → m1 ≤ m2 → (m2 : Int) ≤ nj →
          cmpLine ((qsortGo f nl left nj).getD m1 li0)
            ((qsortGo f nl left nj).getD m2 li0) ≤ 0) := by
      intro hlj
      exact ih nl left nj (by omega) (by omega) (by omega)
    set A := if (left : Int) < nj then qsortGo f nl left nj else nl with hA
    have hAlen : A.length = l.length := by
      rw [hA]
      by_cases hlj : (left : Int) < nj
      · rw [if_pos hlj]
        rw [(ihA hlj).1]
        exact hnlen
      · rw [if_neg hlj]
        exact hnlen
    have hAperm : A.Perm nl := by
      rw [hA]
      by_cases hlj : (left : Int) < nj
      · rw [if_pos hlj]
        exact (ihA hlj).2.1
      · rw [if_neg hlj]
    have hAframe : ∀ m : Nat, ((m : Int) < left ∨ nj < m) →
        A.getD m li0 = nl.getD m li0 := by
      intro m hm
      rw [hA]
      by_cases hlj : (left : Int) < nj
      · rw [if_pos hlj]
        exact (ihA hlj).2.2.1 m hm
      · rw [if_neg hlj]
    have hAQ : ∀ Q : LineInfo → Prop,
        (∀ m : Nat, left ≤ m → (m : Int) ≤ nj → Q (nl.getD m li0)) →
        ∀ m : Nat, left ≤ m → (m : Int) ≤ nj → Q (A.getD m li0) := by
      intro Q hq m hm1 hm2
      rw [hA]
      by_cases hlj : (left : Int) < nj
      · rw [if_pos hlj]
        exact (ihA hlj).2.2.2.1 Q hq m hm1 hm2
      · rw [if_neg hlj]
        exact hq m hm1 hm2
    have hAsort : ∀ m1 m2 : Nat, left ≤ m1 → m1 ≤ m2 → (m2 : Int) ≤ nj →
        cmpLine (A.getD m1 li0) (A.getD m2 li0) ≤ 0 := by
      intro m1 m2 hm1 hm12 hm2
      by_cases hlj : (left : Int) < nj
      · rw [hA, if_pos hlj]
        exact (ihA hlj).2.2.2.2 m1 m2 hm1 hm12 hm2
      · have : m1 = m2 := by omega
        subst this
        exact le_of_eq (cmpLine_refl _)
    have ihB : (ni : Int) < right →
        (qsortGo f A ni right).length = A.length ∧
        (qsortGo f A ni right).Perm A ∧
        (∀ m : Nat, ((m : Int) < ni ∨ right < m) →
          (qsortGo f A ni right).getD m li0 = A.getD m li0) ∧
        (∀ Q : LineInfo → Prop,
          (∀ m : Nat, ni ≤ m → (m : Int) ≤ right → Q (A.getD m li0)) →
          ∀ m : Nat, ni ≤ m → (m : Int) ≤ right →
            Q ((qsortGo f A ni right).getD m li0)) ∧
        (∀ m1 m2 : Nat, ni ≤ m1 → m1 ≤ m2 → (m2 : Int) ≤ right →
          cmpLine ((qsortGo f A ni right).getD m1 li0)
            ((qsortGo f A ni right).getD m2 li0) ≤ 0) := by
      intro hbr
      exact ih A ni right (by omega) (by omega) (by omega)
    set B := if (ni : Int) < right then qsortGo f A ni right else A with hB
    have hBlen : B.length = A.length := by
      rw [hB]
      by_cases hbr : (ni : Int) < right
      · rw [if_pos hbr]
        exact (ihB hbr).1
      · rw [if_neg hbr]
    have hBperm : B.Perm A := by
      rw [hB]
      by_cases hbr : (ni : Int) < right
      · rw [if_pos hbr]
        exact (ihB hbr).2.1
      · rw [if_neg hbr]
    have hBframe : ∀ m : Nat, ((m : Int) < ni ∨ right < m) →
        B.getD m li0 = A.getD m li0 := by
      intro m hm
      rw [hB]
      by_cases hbr : (ni : Int) < right
      · rw [if_pos hbr]
        exact (ihB hbr).2.2.1 m hm
      · rw [if_neg hbr]
    have hBQ : ∀ Q : LineInfo → Prop,
        (∀ m : Nat, ni ≤ m → (m : Int) ≤ right → Q (A.getD m li0)) →
        ∀ m : Nat, ni ≤ m → (m : Int) ≤ right → Q (B.getD m li0) := by
      intro Q hq m hm1 hm2
      rw [hB]
      by_cases hbr : (ni : Int) < right
      · rw [if_pos hbr]
        exact (ihB hbr).2.2.2.1 Q hq m hm1 hm2
      · rw [if_neg hbr]
        exact hq m hm1 hm2
    have hBsort : ∀ m1 m2 : Nat, ni ≤ m1 → m1 ≤ m2 → (m2 : Int) ≤ right →
        cmpLine (B.getD m1 li0) (B.getD m2 li0) ≤ 0 := by
      intro m1 m2 hm1 hm12 hm2
      by_cases hbr : (ni : Int) < right
      · rw [hB, if_pos hbr]
        exact (ihB hbr).2.2.2.2 m1 m2 hm1 hm12 hm2
      · have : m1 = m2 := by omega
        subst this
        exact le_of_eq (cmpLine_refl _)
    have hclassLow : ∀ m : Nat, left ≤ m → m < ni →
        cmpLine (B.getD m li0) p ≤ 0 := by
      intro m hm1 hm2
      rw [hBframe m (Or.inl (by omega))]
      by_cases hmj : (m : Int) ≤ nj
      · exact hAQ (fun x => cmpLine x p ≤ 0)
          (fun m2 hm21 hm22 => pc8 m2 hm21 (by omega)) m hm1 hmj
      · rw [hAframe m (Or.inr (by omega))]
        exact pc8 m hm1 hm2
    have hclassHigh : ∀ m : Nat, nj < (m : Int) → (m : Int) ≤ right →
        0 ≤ cmpLine (B.getD m li0) p := by
      intro m hm1 hm2
      by_cases hmi : ni ≤ m
      · refine hBQ (fun x => 0 ≤ cmpLine x p) ?_ m hmi hm2
        intro m2 hm21 hm22
        rw [hAframe m2 (Or.inr (by omega))]
        exact pc9 m2 (by omega) hm22
      · rw [hBframe m (Or.inl (by omega)), hAframe m (Or.inr hm1)]
        exact pc9 m hm1 hm2
    refine ⟨?_, ?_, ?_, ?_, ?_⟩
    · rw [hBlen, hAlen]
    · exact (hBperm.trans hAperm).trans pc2
    · intro m hm
      rw [hBframe m (by omega), hAframe m (by omega), pc3 m (by omega)]
    · intro Q hq m hm1 hm2
      have hqnl : ∀ m2 : Nat, left ≤ m2 → (m2 : Int) ≤ right → Q (nl.getD m2 li0) :=
        pc4 Q hq
      have hqA : ∀ m2 : Nat, left ≤ m2 → (m2 : Int) ≤ right → Q (A.getD m2 li0) := by
        intro m2 hm21 hm22
        by_cases hmj : (m2 : Int) ≤ nj
        · exact hAQ Q (fun m3 hm31 hm32 => hqnl m3 hm31 (by omega)) m2 hm21 hmj
        · rw [hAframe m2 (Or.inr (by omega))]
          exact hqnl m2 hm21 hm22
      by_cases hmi : ni ≤ m
      · exact hBQ Q (fun m3 hm31 hm32 => hqA m3 (by omega) hm32) m hmi hm2
      · rw [hBframe m (Or.inl (by omega))]
        exact hqA m hm1 hm2
    · intro m1 m2 hm1 hm12 hm2
      by_cases hc1 : (m2 : Int) ≤ nj
      · rw [hBframe m1 (Or.inl (by omega)), hBframe m2 (Or.inl (by omega))]
        exact hAsort m1 m2 hm1 hm12 hc1
      · by_cases hc2 : ni ≤ m1
        · exact hBsort m1 m2 hc2 hm12 hm2
        · exact cmpLine_le_of_between (B.getD m1 li0) p (B.getD m2 li0)
            (hclassLow m1 hm1 (by omega)) (hclassHigh m2 (by omega) hm2)

theorem quicksortLineinfo_perm (l : List LineInfo) :
    (quicksortLineinfo l).Perm l := by
  unfold quicksortLineinfo
  by_cases h : l.length ≤ 1
  · rw [if_pos h]
  · rw [if_neg h]
    exact (qsortGo_spec l.length l 0 ((l.length : Int) - 1) (by omega)
      (by omega) (by omega)).2.1

theorem quicksortLineinfo_sorted (l : List LineInfo) :
    (quicksortLineinfo l).Pairwise (fun a b => cmpLine a b ≤ 0) := by
  unfold quicksortLineinfo
  by_cases h : l.length ≤ 1
  · rw [if_pos h]
    cases l with
    | nil => exact List.Pairwise.nil
    | cons a t =>
      cases t with
      | nil => simp
      | cons b t2 => simp at h
  · rw [if_neg h]
    obtain ⟨s1, _, _, _, s5⟩ :=
      qsortGo_spec l.length l 0 ((l.length : Int) - 1) (by omega) (by omega)
        (by omega)
    rw [List.pairwise_iff_getElem]
    intro i j hi hj hij
    have hjl : j < l.length := by omega
    have := s5 i j (by omega) (by omega) (by omega)
    rw [List.getD_eq_getElem _ _ hi] at this
    rw [List.getD_eq_getElem _ _ hj] at this
    exact this

theorem cmp_antisym_on (l : List LineInfo)
    (hdist : l.Pairwise (fun a b => a.start ≠ b.start)) :
    ∀ a ∈ l, ∀ b ∈ l, cmpLine a b ≤ 0 → cmpLine b a ≤ 0 → a = b := by
  intro a ha b hb h1 h2
  by_cases hab : a = b
  · exact hab
  · have hne : a.start ≠ b.start :=
      List.Pairwise.forall (fun x y h => Ne.symm h) hdist ha hb hab
    exact absurd (cmpLine_le_antisymm_start a b h1 h2) hne

/-- C6: for every line sequence with distinct byte offsets, the sort
engine returns a permutation of the input ordered by the specification's
relation `specLE` (unparsed lines first, ordered by offset; then RNAME
lexicographically, then position, then offset), and it is the unique such
ordering of the input — so lines with equal (RNAME, position) keys appear
in byte-offset order, which is their original relative order (stability). -/
theorem sort_engine_spec (l : List LineInfo)
    (hdist : l.Pairwise (fun a b => a.start ≠ b.start)) :
    (quicksortLineinfo l).Perm l ∧
    (quicksortLineinfo l).Pairwise specLE ∧
    (∀ l2 : List LineInfo, l2.Perm l → l2.Pairwise specLE →
      l2 = quicksortLineinfo l) := by
  have hperm := quicksortLineinfo_perm l
  have hsorted := quicksortLineinfo_sorted l
  have hspec : (quicksortLineinfo l).Pairwise specLE :=
    hsorted.imp (fun h => (cmpLine_le_iff_specLE _ _).mp h)
  refine ⟨hperm, hspec, ?_⟩
  intro l2 hp2 hs2
  refine sorted_perm_unique specLE l2 (quicksortLineinfo l)
    (hp2.trans hperm.symm) hs2 hspec ?_
  intro a ha b hb hab hba
  exact cmp_antisym_on l hdist a (hp2.mem_iff.mp ha) b (hp2.mem_iff.mp hb)
    ((cmpLine_le_iff_specLE a b).mpr hab) ((cmpLine_le_iff_specLE b a).mpr hba)

theorem sort_engine_spec_witness :
    ((quicksortLineinfo [⟨100, 10, [99], 5, true⟩, ⟨50, 10, [98], 7, true⟩,
        ⟨200, 10, [], -1, false⟩]).Perm
      [⟨100, 10, [99], 5, true⟩, ⟨50, 10, [98], 7, true⟩,
        ⟨200, 10, [], -1, false⟩] ∧
     (quicksortLineinfo [⟨100, 10, [99], 5, true⟩, ⟨50, 10, [98], 7, true⟩,
        ⟨200, 10, [], -1, false⟩]).Pairwise specLE ∧
     (∀ l2 : List LineInfo,
        l2.Perm [⟨100, 10, [99], 5, true⟩, ⟨50, 10, [98], 7, true⟩,
          ⟨200, 10, [], -1, false⟩] → l2.Pairwise specLE →
        l2 = quicksortLineinfo [⟨100, 10, [99], 5, true⟩,
          ⟨50, 10, [98], 7, true⟩, ⟨200, 10, [], -1, false⟩])) ∧
    quicksortLineinfo [⟨100, 10, [99], 5, true⟩, ⟨50, 10, [98], 7, true⟩,
        ⟨200, 10, [], -1, false⟩] =
      [⟨200, 10, [], -1, false⟩, ⟨50, 10, [98], 7, true⟩,
        ⟨100, 10, [99], 5, true⟩] :=
  ⟨sort_engine_spec [⟨100, 10, [99], 5, true⟩, ⟨50, 10, [98], 7, true⟩,
      ⟨200, 10, [], -1, false⟩] (by decide), by decide⟩

/-- The literal idempotence claim fails for sequences that repeat a byte
offset: these two already-sorted (equal-comparing) unparsed lines are
swapped by the pivot iteration of the partition loop. -/
theorem sort_idempotent_counterexample :
    ([⟨0, 5, [], -1, false⟩, ⟨0, 7, [], -1, false⟩] : List LineInfo).Pairwise
      (fun a b => cmpLine a b ≤ 0) ∧
    quicksortLineinfo [⟨0, 5, [], -1, false⟩, ⟨0, 7, [], -1, false⟩] ≠
      [⟨0, 5, [], -1, false⟩, ⟨0, 7, [], -1, false⟩] := by decide

/-- C7 (amended): on line sequences with distinct byte offsets — which is
what the line parser produces — sorting an already-sorted sequence returns
it unchanged. -/
theorem sort_idempotent (l : List LineInfo)
    (hdist : l.Pairwise (fun a b => a.start ≠ b.start))
    (hsort : l.Pairwise (fun a b => cmpLine a b ≤ 0)) :
    quicksortLineinfo l = l := by
  have hperm := quicksortLineinfo_perm l
  have hsorted := quicksortLineinfo_sorted l
  refine sorted_perm_unique (fun a b => cmpLine a b ≤ 0) (quicksortLineinfo l) l
    hperm hsorted hsort ?_
  intro a ha b hb hab hba
  exact cmp_antisym_on l hdist a (hperm.mem_iff.mp ha) b (hperm.mem_iff.mp hb)
    hab hba

theorem sort_idempotent_witness :
    quicksortLineinfo [⟨0, 3, [], -1, false⟩, ⟨5, 4, [97], 1, true⟩] =
      [⟨0, 3, [], -1, false⟩, ⟨5, 4, [97], 1, true⟩] :=
  sort_idempotent [⟨0, 3, [], -1, false⟩, ⟨5, 4, [97], 1, true⟩]
    (by decide) (by decide)
